import Mathlib

/-!
Verification of the vehicle-mapping core of this repository: a shallow
embedding, over the reals, of the ICP odometry validation logic
(`src/simple_icp.py`, `src/operators/icp_odometry_op.py`), the waypoint
extractor and its Douglas-Peucker simplifier (`src/waypoint_extractor.py`,
`src/operators/waypoint_extractor_op.py`), the loop detector and Scan
Context descriptor (`src/loop_detector.py`), and the pose-graph convenience
constructor (`src/pose_graph.py`).

Floating-point numbers of the source are modelled as real numbers; the
external ICP solver (Open3D) is modelled as an oracle input: its result
(a correction transform, a fitness and an rmse) is a parameter of the
functions that consume it, exactly as the surrounding Python code treats it.
-/

noncomputable section

namespace VehicleMapping

/-! ### Plane and space vectors, 3x3 matrices, rigid transforms

The Python code stores poses as 4x4 homogeneous matrices and only ever reads
the rotation block `M[:3,:3]` and the translation column `M[:3,3]`; we embed
a pose as that pair.  Vectors are tuples of reals, matrices are row triples.
-/

/-- A 2D point `(x, y)`. -/
abbrev P2 := ℝ × ℝ

/-- A 3D point `(x, y, z)`. -/
abbrev P3 := ℝ × ℝ × ℝ

def add2 (a b : P2) : P2 := (a.1 + b.1, a.2 + b.2)

def sub2 (a b : P2) : P2 := (a.1 - b.1, a.2 - b.2)

def smul2 (c : ℝ) (a : P2) : P2 := (c * a.1, c * a.2)

/-- Componentwise division of a 2D vector by a scalar (numpy `v / c`). -/
def div2 (a : P2) (c : ℝ) : P2 := (a.1 / c, a.2 / c)

def dot2 (a b : P2) : ℝ := a.1 * b.1 + a.2 * b.2

/-- The scalar 2D cross product `a.x * b.y - a.y * b.x`. -/
def cross2 (a b : P2) : ℝ := a.1 * b.2 - a.2 * b.1

/-- Euclidean norm of a 2D vector (`np.linalg.norm`). -/
def norm2 (a : P2) : ℝ := Real.sqrt (dot2 a a)

/-- Euclidean distance of two 2D points. -/
def dist2 (a b : P2) : ℝ := norm2 (sub2 a b)

def add3 (a b : P3) : P3 := (a.1 + b.1, a.2.1 + b.2.1, a.2.2 + b.2.2)

def sub3 (a b : P3) : P3 := (a.1 - b.1, a.2.1 - b.2.1, a.2.2 - b.2.2)

def smul3 (c : ℝ) (a : P3) : P3 := (c * a.1, c * a.2.1, c * a.2.2)

def dot3 (a b : P3) : ℝ := a.1 * b.1 + a.2.1 * b.2.1 + a.2.2 * b.2.2

/-- Euclidean norm of a 3D vector (`np.linalg.norm`). -/
def norm3 (a : P3) : ℝ := Real.sqrt (dot3 a a)

/-- Euclidean distance of two 3D points. -/
def dist3 (a b : P3) : ℝ := norm3 (sub3 a b)

/-- Projection of a 3D point onto the xy-plane (`p[:2]`). -/
def proj2 (p : P3) : P2 := (p.1, p.2.1)

/-- A 3x3 matrix stored as its three rows. -/
abbrev M3 := P3 × P3 × P3

/-- Matrix-vector product of a 3x3 matrix with a 3D vector. -/
def mulVec3 (A : M3) (v : P3) : P3 := (dot3 A.1 v, dot3 A.2.1 v, dot3 A.2.2 v)

/-- Linear combination of the rows of `B` with coefficients `c`. -/
def lcomb3 (c : P3) (B : M3) : P3 :=
  add3 (add3 (smul3 c.1 B.1) (smul3 c.2.1 B.2.1)) (smul3 c.2.2 B.2.2)

/-- Matrix product of two 3x3 matrices. -/
def mul3 (A B : M3) : M3 := (lcomb3 A.1 B, lcomb3 A.2.1 B, lcomb3 A.2.2 B)

/-- The 3x3 identity matrix. -/
def idM3 : M3 := ((1, 0, 0), (0, 1, 0), (0, 0, 1))

/-- A rigid transform as stored in a 4x4 homogeneous matrix: the rotation
block `M[:3,:3]` and the translation column `M[:3,3]`. -/
structure SE3 where
  R : M3
  t : P3

/-- Product of two homogeneous 4x4 transforms (`A @ B`), restricted to the
rotation/translation blocks. -/
def compSE3 (A B : SE3) : SE3 := ⟨mul3 A.R B.R, add3 (mulVec3 A.R B.t) A.t⟩

/-- The identity transform (`np.eye(4)`). -/
def idSE3 : SE3 := ⟨idM3, (0, 0, 0)⟩

/-- A pure translation transform. -/
def translateSE3 (v : P3) : SE3 := ⟨idM3, v⟩

/-- Apply a rigid transform to a point (`(T[:3,:3] @ p) + T[:3,3]`). -/
def applySE3 (T : SE3) (p : P3) : P3 := add3 (mulVec3 T.R p) T.t

/-! ### ICP odometry pose validation (`simple_icp.py`, `run_on_sequence`)

`run_on_sequence` calls Open3D's ICP once per frame `i >= 1`; the solver's
output `(T_correction, fitness)` for each frame is modelled as an oracle
input (one list entry per frame `i >= 1`).  The embedded code is the part of
the loop body from `T_abs = T_correction @ poses[-1]` through
`poses.append(T_abs)` (lines 158-180 of `simple_icp.py`), which validates
the candidate pose and applies the motion-model fallback. -/

/-- One validation step of `run_on_sequence`.  `prev` is `poses[-1]`, `rest`
the earlier poses (most recent first, so `rest.head? = poses[-2]`), `Tc` and
`fitness` the ICP result for this frame.  Returns the appended pose and the
fitness of this frame; `expectedMotion` is the code's `expected_motion`
constant (0.25 in the source). -/
def registerStep (expectedMotion : ℝ) (prev : SE3) (rest : List SE3)
    (Tc : SE3) (fitness : ℝ) : SE3 × ℝ :=
  let Tabs := compSE3 Tc prev
  let deltaPos := dist3 Tabs.t prev.t
  if deltaPos > expectedMotion * 3 then
    match rest with
    | prev2 :: _ =>
        (⟨prev.R, add3 prev.t (sub3 prev.t prev2.t)⟩, 0)
    | [] => (prev, 0)
  else
    (Tabs, fitness)

/-- The frames-`1..n` loop of `run_on_sequence`, given the per-frame ICP
oracle results; produces, in frame order, the appended pose and the frame's
fitness.  `prev`/`rest` hold the pose list so far, most recent first. -/
def runFrom (expectedMotion : ℝ) : SE3 → List SE3 → List (SE3 × ℝ) → List (SE3 × ℝ)
  | _, _, [] => []
  | prev, rest, (Tc, f) :: rs =>
      let r := registerStep expectedMotion prev rest Tc f
      r :: runFrom expectedMotion r.1 (prev :: rest) rs

/-- `run_on_sequence`: the first pose is the identity (`poses = [np.eye(4)]`,
with fitness 1 as reported for frame 0 by the operator), and each later frame
is produced by `registerStep` from that frame's ICP oracle result. -/
def runOnSequence (expectedMotion : ℝ) (icpResults : List (SE3 × ℝ)) : List (SE3 × ℝ) :=
  (idSE3, 1) :: runFrom expectedMotion idSE3 [] icpResults

/-! ### Spatial loop detector (`loop_detector.py`, `LoopDetector.detect_candidates`)

The pose dictionary is embedded as an association list `(id, pose)` in the
order produced by `sorted(poses.keys())`.  The nested loop skips a pair when
`id_j - id_i < min_frame_gap` (Python integer subtraction, embedded in `ℤ`)
and keeps it when the translation distance is below the threshold. -/

/-- `LoopDetector.detect_candidates` (defaults: `min_frame_gap = 50`,
`distance_threshold = 5.0`). -/
def detectCandidates (minFrameGap : ℤ) (distanceThreshold : ℝ)
    (poses : List (ℕ × SE3)) : List (ℕ × ℕ) :=
  poses.flatMap (fun pi =>
    poses.filterMap (fun pj =>
      if (pj.1 : ℤ) - (pi.1 : ℤ) < minFrameGap then none
      else if dist3 pi.2.t pj.2.t < distanceThreshold then some (pi.1, pj.1) else none))

/-! ### Scan Context descriptor (`loop_detector.py`, `ScanContextDetector`)

A descriptor is embedded as a function `ℕ → ℕ → ℝ` (ring index, sector
index); entries outside the `numRings x numSectors` grid are irrelevant and
stay 0.  numpy's `astype(int)` truncates toward zero. -/

/-- Conversion of a real to an integer by truncation toward zero
(numpy `astype(int)`). -/
def truncToInt (x : ℝ) : ℤ := if 0 ≤ x then ⌊x⌋ else -⌊-x⌋

/-- `np.arctan2 y x`: the angle of the point `(x, y)`, in `(-pi, pi]`. -/
def atan2 (y x : ℝ) : ℝ := Complex.arg ⟨x, y⟩

/-- `np.clip(v, lo, hi)` on integers. -/
def clipZ (v lo hi : ℤ) : ℤ := min (max v lo) hi

/-- Ring index of a point: `clip(int(sqrt(x^2+y^2) / max_range * num_rings),
0, num_rings - 1)`. -/
def rangeIdx (numRings : ℕ) (maxRange : ℝ) (p : P3) : ℕ :=
  (clipZ (truncToInt (Real.sqrt (p.1 ^ 2 + p.2.1 ^ 2) / maxRange * numRings))
    0 ((numRings : ℤ) - 1)).toNat

/-- Sector index of a point: `clip(int((atan2(y,x) + pi) / (2 pi) *
num_sectors), 0, num_sectors - 1)`. -/
def angleIdx (numSectors : ℕ) (p : P3) : ℕ :=
  (clipZ (truncToInt ((atan2 p.2.1 p.1 + Real.pi) / (2 * Real.pi) * numSectors))
    0 ((numSectors : ℤ) - 1)).toNat

/-- `ScanContextDetector.compute_descriptor`: starting from a zero matrix,
each point updates its bin with `descriptor[r, a] = max(descriptor[r, a], z)`
(defaults: 60 sectors, 20 rings, 80 m range). -/
def computeDescriptor (numSectors numRings : ℕ) (maxRange : ℝ)
    (points : List P3) : ℕ → ℕ → ℝ :=
  points.foldl
    (fun d p => fun r a =>
      if r = rangeIdx numRings maxRange p ∧ a = angleIdx numSectors p
      then max (d r a) p.2.2 else d r a)
    (fun _ _ => 0)

/-- Frobenius norm of a descriptor over the `numRings x numSectors` grid
(`np.linalg.norm`). -/
def frobNorm (numRings numSectors : ℕ) (d : ℕ → ℕ → ℝ) : ℝ :=
  Real.sqrt (∑ r ∈ Finset.range numRings, ∑ a ∈ Finset.range numSectors, d r a ^ 2)

/-- Elementwise product sum of two descriptors (`np.sum(d1 * d2)`). -/
def dotDesc (numRings numSectors : ℕ) (d e : ℕ → ℕ → ℝ) : ℝ :=
  ∑ r ∈ Finset.range numRings, ∑ a ∈ Finset.range numSectors, d r a * e r a

/-- `np.roll(d, shift, axis=1)`: column `a` of the result is column
`(a - shift) mod numSectors` of `d`. -/
def rollCols (numSectors shift : ℕ) (d : ℕ → ℕ → ℝ) : ℕ → ℕ → ℝ :=
  fun r a => d r ((a + numSectors - shift % numSectors) % numSectors)

/-- `ScanContextDetector._compute_similarity`: the best, over all cyclic
column shifts, of the cosine similarity, starting from 0 and skipping shifts
where either norm vanishes. -/
def computeSimilarity (numRings numSectors : ℕ) (d1 d2 : ℕ → ℕ → ℝ) : ℝ :=
  (List.range numSectors).foldl
    (fun bestSim shift =>
      let shifted := rollCols numSectors shift d2
      let n1 := frobNorm numRings numSectors d1
      let n2 := frobNorm numRings numSectors shifted
      if 0 < n1 ∧ 0 < n2
      then max bestSim (dotDesc numRings numSectors d1 shifted / (n1 * n2))
      else bestSim)
    0

/-! ### Pose graph construction (`pose_graph.py`, `PoseGraphOptimizer`)

Poses handed to the pose graph are raw 4x4 numpy arrays; they are embedded
as `Matrix (Fin 4) (Fin 4) ℝ`, with `np.linalg.inv` as matrix inversion.
GTSAM's optimizer is external and is modelled as an oracle parameter. -/

/-- A 4x4 real matrix (a raw numpy pose). -/
abbrev M4 := Matrix (Fin 4) (Fin 4) ℝ

/-- A factor of the nonlinear factor graph; between factors are tagged by
the noise model they carry (`noise_model_odom` vs `noise_model_loop`). -/
inductive Factor where
  | prior (poseId : ℕ) (pose : M4)
  | betweenOdom (idFrom idTo : ℕ) (rel : M4)
  | betweenLoop (idFrom idTo : ℕ) (rel : M4)

/-- The mutable state of `PoseGraphOptimizer`: the factor graph, the initial
estimates, the tracked pose-id set (insertion order), and the counters. -/
structure GraphState where
  graph : List Factor
  initialEstimates : List (ℕ × M4)
  poseIds : List ℕ
  nOdomFactors : ℕ
  nLoopFactors : ℕ

/-- The state of a freshly constructed `PoseGraphOptimizer`. -/
def initGraphState : GraphState := ⟨[], [], [], 0, 0⟩

/-- `PoseGraphOptimizer.add_prior`. -/
def addPrior (st : GraphState) (poseId : ℕ) (pose : M4) : GraphState :=
  { st with graph := st.graph ++ [Factor.prior poseId pose] }

/-- `PoseGraphOptimizer.add_initial_estimate`: inserts only when the id is
not yet tracked. -/
def addInitialEstimate (st : GraphState) (poseId : ℕ) (pose : M4) : GraphState :=
  if poseId ∈ st.poseIds then st
  else { st with initialEstimates := st.initialEstimates ++ [(poseId, pose)],
                 poseIds := st.poseIds ++ [poseId] }

/-- `PoseGraphOptimizer.add_odometry_factor`. -/
def addOdometryFactor (st : GraphState) (idFrom idTo : ℕ) (rel : M4) : GraphState :=
  { st with graph := st.graph ++ [Factor.betweenOdom idFrom idTo rel],
            nOdomFactors := st.nOdomFactors + 1 }

/-- `PoseGraphOptimizer.add_loop_closure`. -/
def addLoopClosure (st : GraphState) (idFrom idTo : ℕ) (rel : M4) : GraphState :=
  { st with graph := st.graph ++ [Factor.betweenLoop idFrom idTo rel],
            nLoopFactors := st.nLoopFactors + 1 }

/-- The `for i in range(1, n_poses)` loop of `build_from_odometry`: `prev`
is `odom_poses[i-1]`, the list argument holds `odom_poses[i:]`. -/
def buildChain (st : GraphState) (prev : M4) (i : ℕ) : List M4 → GraphState
  | [] => st
  | p :: rest =>
      buildChain (addInitialEstimate (addOdometryFactor st (i - 1) i (prev⁻¹ * p)) i p)
        p (i + 1) rest

/-- `PoseGraphOptimizer.build_from_odometry` on a fresh optimizer: prior and
initial estimate at 0, then the odometry chain, then `optimize` (GTSAM's
Levenberg-Marquardt, modelled as an oracle).  An empty input returns the
empty dictionary without touching the graph. -/
def buildFromOdometry (optimize : GraphState → List (ℕ × M4))
    (odomPoses : List M4) : GraphState × List (ℕ × M4) :=
  match odomPoses with
  | [] => (initGraphState, [])
  | p0 :: rest =>
      let st1 := addInitialEstimate (addPrior initGraphState 0 p0) 0 p0
      let st2 := buildChain st1 p0 1 rest
      (st2, optimize st2)

/-! ### The ICP odometry operator (`operators/icp_odometry_op.py`)

`Operator.on_event` for a `pointcloud` input: a zero-length payload returns
`CONTINUE` immediately; otherwise `_register_frame` runs (with Open3D's ICP
as an oracle of the current frame and the local map) and a `pose` and an
`odometry_status` message are emitted. -/

instance : Inhabited SE3 := ⟨idSE3⟩

/-- numpy slicing `l[::step]`: every `step`-th element, starting at index 0. -/
def everyNth (step : ℕ) (l : List α) : List α :=
  l.enum.filterMap (fun x => if x.1 % step = 0 then some x.2 else none)

/-- `points_flat.reshape(-1, 3)`: group a flat float list into triples. -/
def chunk3 : List ℝ → List P3
  | a :: b :: c :: rest => (a, b, c) :: chunk3 rest
  | _ => []

/-- `pose.flatten()` of the embedded 4x4 homogeneous matrix (row-major). -/
def flattenSE3 (T : SE3) : List ℝ :=
  [T.R.1.1, T.R.1.2.1, T.R.1.2.2, T.t.1,
   T.R.2.1.1, T.R.2.1.2.1, T.R.2.1.2.2, T.t.2.1,
   T.R.2.2.1, T.R.2.2.2.1, T.R.2.2.2.2, T.t.2.2,
   0, 0, 0, 1]

/-- The operator's mutable state: `poses` (most recent first, so the head is
`poses[-1]`), the world-frame clouds, and the frame counter. -/
structure OpState where
  poses : List SE3
  worldClouds : List (List P3)
  frameCount : ℕ

/-- The state after `Operator.__init__`. -/
def initOpState : OpState := ⟨[idSE3], [], 0⟩

/-- `Operator._register_frame`, with the ICP solver as an oracle taking the
current frame and the local-map points. -/
def registerFrameOp (icp : List P3 → List P3 → SE3 × ℝ × ℝ) (st : OpState)
    (points : List P3) : OpState × (SE3 × ℝ × ℝ) :=
  if st.frameCount = 0 then
    ({ st with worldClouds := st.worldClouds ++ [points], frameCount := st.frameCount + 1 },
     (idSE3, 1, 0))
  else
    let startIdx := st.worldClouds.length - 5
    let localMapChunks := (st.worldClouds.drop startIdx).map
      (fun pts => everyNth (max 1 (pts.length / 5000)) pts)
    if localMapChunks.isEmpty then
      (st, (st.poses.headI, 0, 0))
    else
      let localMapPoints := localMapChunks.flatten
      let prevPose := st.poses.headI
      let res := icp points localMapPoints
      let Tabs := compSE3 res.1 prevPose
      let deltaPos := dist3 Tabs.t prevPose.t
      let validated : SE3 × ℝ :=
        if deltaPos > 0.75 then
          match st.poses with
          | _ :: prev2 :: _ => (⟨prevPose.R, add3 prevPose.t (sub3 prevPose.t prev2.t)⟩, 0)
          | _ => (prevPose, 0)
        else (Tabs, res.2.1)
      ({ poses := validated.1 :: st.poses,
         worldClouds := st.worldClouds ++ [points.map (applySE3 validated.1)],
         frameCount := st.frameCount + 1 },
       (validated.1, validated.2, res.2.2))

/-- `Operator.on_event` for a `pointcloud` input: the state transition and
the list of `(output_id, payload)` messages sent. -/
def onPointcloudEvent (icp : List P3 → List P3 → SE3 × ℝ × ℝ) (st : OpState)
    (pointsFlat : List ℝ) : OpState × List (String × List ℝ) :=
  if pointsFlat.length = 0 then (st, [])
  else
    let res := registerFrameOp icp st (chunk3 pointsFlat)
    (res.1,
     [("pose", flattenSE3 res.2.1),
      ("odometry_status", [(res.1.frameCount : ℝ) - 1, res.2.2.1, res.2.2.2])])

/-! ### Waypoint extraction (`waypoint_extractor.py`, `WaypointExtractor`)

`extract` takes the pose dictionary; Python iterates it in sorted-key order,
so the input is embedded as the list of poses in that order. -/

/-- Perpendicular distance from `p` to the line through `start` with unit
direction `lineUnit`, exactly as `_douglas_peucker` computes it: project,
then take the norm of the residual. -/
def distPtLine (start lineUnit p : P2) : ℝ :=
  norm2 (sub2 p (add2 start (smul2 (dot2 (sub2 p start) lineUnit) lineUnit)))

/-- `points[0]` of `_douglas_peucker` (the code's `start`). -/
def dpStart (points : List P2) : P2 := points.headI

/-- `points[-1]` of `_douglas_peucker` (the code's `end`). -/
def dpFinish (points : List P2) : P2 := points.getLastD (0, 0)

/-- The code's `line_len = np.linalg.norm(end - start)`. -/
def dpLineLen (points : List P2) : ℝ := norm2 (sub2 (dpFinish points) (dpStart points))

/-- The code's `line_unit = line_vec / line_len`. -/
def dpUnit (points : List P2) : P2 :=
  div2 (sub2 (dpFinish points) (dpStart points)) (dpLineLen points)

/-- The code's `distances` list: the point-to-chord distance of every point. -/
def dpDistances (points : List P2) : List ℝ :=
  points.map (fun p => distPtLine (dpStart points) (dpUnit points) p)

/-- The code's `max_dist = max(distances)` (all entries are non-negative, so
folding `max` from 0 agrees with Python's `max`, whose list always contains
`distances[0] = 0`). -/
def dpMaxDist (points : List P2) : ℝ := (dpDistances points).foldl max 0

/-- The code's `max_idx = distances.index(max_dist)`: the first index
attaining the maximum. -/
def dpMaxIdx (points : List P2) : ℕ := (dpDistances points).indexOf (dpMaxDist points)

/-- `WaypointExtractor._douglas_peucker`, which returns the kept indices.
The recursion is fuelled: the source recursion terminates for every
tolerance `>= 0` (each recursive call is on a strictly shorter list), and
`douglasPeucker` below supplies fuel `points.length`, which is sufficient;
the fuel-0 value is never reached for tolerance `>= 0`. -/
def dpAux : ℕ → List P2 → ℝ → List ℕ
  | 0, _, _ => []
  | fuel + 1, points, tol =>
    if points.length < 3 then List.range points.length
    else if dpLineLen points < 1 / 1000000 then [0, points.length - 1]
    else if dpMaxDist points > tol then
      (dpAux fuel (points.take (dpMaxIdx points + 1)) tol).dropLast
        ++ (dpAux fuel (points.drop (dpMaxIdx points)) tol).map (fun i => i + dpMaxIdx points)
    else [0, points.length - 1]

/-- `_douglas_peucker` with its natural fuel. -/
def douglasPeucker (points : List P2) (tol : ℝ) : List ℕ :=
  dpAux points.length points tol

/-- The configuration of `WaypointExtractor` (defaults: `min_distance` 0.5,
`simplify` true, `simplify_tolerance` 0.1, `z_threshold` None). -/
structure WaypointConfig where
  minDistance : ℝ
  simplify : Bool
  simplifyTolerance : ℝ
  zThreshold : Option ℝ

/-- The loop of `_filter_by_distance`: `lastKept` is `filtered[-1]`; a
candidate is appended when its xy-distance to `lastKept` is `>= min_distance`. -/
def fbdAux (minDist : ℝ) : P3 → List P3 → List P3
  | _, [] => []
  | lastKept, p :: rest =>
      if dist2 (proj2 p) (proj2 lastKept) ≥ minDist then p :: fbdAux minDist p rest
      else fbdAux minDist lastKept rest

/-- `WaypointExtractor._filter_by_distance`. -/
def filterByDistance (minDist : ℝ) : List P3 → List P3
  | [] => []
  | p :: rest => p :: fbdAux minDist p rest

/-- `np.median` of a list of reals. -/
def medianR (l : List ℝ) : ℝ :=
  let s := l.mergeSort (fun a b => a ≤ b)
  if l.length % 2 = 1 then s.getD (l.length / 2) 0
  else (s.getD (l.length / 2 - 1) 0 + s.getD (l.length / 2) 0) / 2

/-- `WaypointExtractor._filter_by_z`. -/
def filterByZ (zThreshold : ℝ) (positions : List P3) : List P3 :=
  if positions.length = 0 then positions
  else
    let zref := medianR (positions.map (fun p => p.2.2))
    positions.filter (fun p => |p.2.2 - zref| < zThreshold)

/-- `WaypointExtractor._simplify_trajectory`: Douglas-Peucker on the 2D
projections, then select those indices from the 3D positions. -/
def simplifyTrajectory (tol : ℝ) (positions : List P3) : List P3 :=
  if positions.length < 3 then positions
  else (douglasPeucker (positions.map proj2) tol).map (fun i => positions.getD i (0, 0, 0))

/-- `WaypointExtractor.extract`. -/
def extract (cfg : WaypointConfig) (poses : List SE3) : List P2 :=
  match poses with
  | [] => []
  | _ :: _ =>
    let positions := poses.map (fun T => T.t)
    let w1 := filterByDistance cfg.minDistance positions
    let w2 := match cfg.zThreshold with
      | none => w1
      | some thr => filterByZ thr w1
    let w3 := if cfg.simplify then simplifyTrajectory cfg.simplifyTolerance w2 else w2
    w3.map proj2

/-- Modelled from the claim's words (C7): keep the first point; thereafter
keep each candidate whose distance to the last kept point strictly EXCEEDS
`s_min`.  Used only to compare the claim's description with the code. -/
def claimFilterStrictAux (minDist : ℝ) : P3 → List P3 → List P3
  | _, [] => []
  | lastKept, p :: rest =>
      if dist2 (proj2 p) (proj2 lastKept) > minDist then p :: claimFilterStrictAux minDist p rest
      else claimFilterStrictAux minDist lastKept rest

/-- Modelled from the claim's words (C7): the strict-inequality variant of
the minimum-spacing filter. -/
def claimFilterStrict (minDist : ℝ) : List P3 → List P3
  | [] => []
  | p :: rest => p :: claimFilterStrictAux minDist p rest

/-! ### General lemmas -/

theorem mul3_id_left (A : M3) : mul3 idM3 A = A := by
  obtain ⟨⟨a1, a2, a3⟩, ⟨b1, b2, b3⟩, ⟨c1, c2, c3⟩⟩ := A
  simp [mul3, lcomb3, smul3, add3, idM3]

theorem mul3_id_right (A : M3) : mul3 A idM3 = A := by
  obtain ⟨⟨a1, a2, a3⟩, ⟨b1, b2, b3⟩, ⟨c1, c2, c3⟩⟩ := A
  simp [mul3, lcomb3, smul3, add3, idM3]

theorem mulVec3_id (v : P3) : mulVec3 idM3 v = v := by
  obtain ⟨x, y, z⟩ := v
  simp [mulVec3, dot3, idM3]

theorem dist3_eval (a b : P3) :
    dist3 a b = Real.sqrt ((a.1 - b.1) * (a.1 - b.1) + ((a.2.1 - b.2.1) * (a.2.1 - b.2.1)
      + (a.2.2 - b.2.2) * (a.2.2 - b.2.2))) := by
  simp [dist3, norm3, sub3, dot3]; ring_nf

theorem sqrt_hundred : Real.sqrt 100 = 10 := by
  rw [show (100 : ℝ) = 10 ^ 2 by norm_num]
  exact Real.sqrt_sq (by norm_num)

/-! ### Claim C1: motion-model fallback on an implausible ICP result

The candidate is rejected exactly when its translation jump exceeds
`3 * expected_motion`, and the reported fitness is then 0, as the claim
states; but the fallback pose adds the previous velocity to the previous
translation directly (`T_abs[:3, 3] += velocity`), which is
`translate(v) * pose_prev` — composing `pose_prev` on the LEFT with the
translation — not `pose_prev * translate(v)` as the claim's right
composition would give.  The two differ whenever the previous rotation does
not fix `v`. -/

/-- Counterexample to C1 as stated: with the previous rotation a 90-degree
yaw, the fallback pose produced by the code differs from
`pose_prev * translate(t_prev - t_prevprev)`. -/
theorem registerStep_fallback_counterexample :
    registerStep (1/4) ⟨((0, -1, 0), (1, 0, 0), (0, 0, 1)), (1, 0, 0)⟩ [idSE3]
        (translateSE3 (10, 0, 0)) (1/2)
      ≠ (compSE3 ⟨((0, -1, 0), (1, 0, 0), (0, 0, 1)), (1, 0, 0)⟩
          (translateSE3 (sub3 (1, 0, 0) idSE3.t)), 0) := by
  have hc : (compSE3 (translateSE3 (10, 0, 0))
      ⟨((0, -1, 0), (1, 0, 0), (0, 0, 1)), (1, 0, 0)⟩).t = ((11 : ℝ), 0, 0) := by
    norm_num [compSE3, translateSE3, mulVec3, dot3, add3, idM3]
  have hd : dist3 ((11 : ℝ), 0, 0) ((1 : ℝ), (0 : ℝ), (0 : ℝ)) = 10 := by
    rw [dist3_eval]; norm_num [sqrt_hundred]
  have hrej : dist3 (compSE3 (translateSE3 (10, 0, 0))
      ⟨((0, -1, 0), (1, 0, 0), (0, 0, 1)), (1, 0, 0)⟩).t
      (SE3.mk ((0, -1, 0), (1, 0, 0), (0, 0, 1)) (1, 0, 0)).t > (1/4) * 3 := by
    rw [hc]; rw [show (SE3.mk ((0, -1, 0), (1, 0, 0), (0, 0, 1)) ((1 : ℝ), 0, 0)).t
      = ((1 : ℝ), (0 : ℝ), (0 : ℝ)) from rfl, hd]; norm_num
  have hL : registerStep (1/4) ⟨((0, -1, 0), (1, 0, 0), (0, 0, 1)), (1, 0, 0)⟩ [idSE3]
      (translateSE3 (10, 0, 0)) (1/2)
      = (⟨((0, -1, 0), (1, 0, 0), (0, 0, 1)), (2, 0, 0)⟩, 0) := by
    simp only [registerStep, if_pos hrej]
    norm_num [add3, sub3, idSE3]
  rw [hL]
  intro h
  have ht := congrArg (fun r => r.1.t.2.1) h
  simp only [compSE3, translateSE3, mulVec3, dot3, add3, idM3, sub3, idSE3] at ht
  norm_num at ht

/-- Claim C1 (amended): on rejection (translation jump above
`3 * expected_motion`) the fitness is 0 and, when at least two poses exist,
the fallback pose is `translate(t_prev - t_prevprev) * pose_prev` (left
composition: rotation unchanged, translation incremented by the previous
velocity); with fewer than two poses the fallback pose is `pose_prev`. -/
theorem registerStep_fallback_spec (mu f : ℝ) (prev prev2 : SE3) (rest : List SE3)
    (Tc : SE3) (hrej : dist3 (compSE3 Tc prev).t prev.t > mu * 3) :
    registerStep mu prev (prev2 :: rest) Tc f
      = (compSE3 (translateSE3 (sub3 prev.t prev2.t)) prev, 0)
    ∧ registerStep mu prev [] Tc f = (prev, 0) := by
  constructor
  · simp only [registerStep, if_pos hrej]
    simp [compSE3, translateSE3, mul3_id_left, mulVec3_id]
  · simp only [registerStep, if_pos hrej]

/-- Witness for C1's amended theorem at a concrete rejected step. -/
theorem registerStep_fallback_spec_witness :
    dist3 (compSE3 (translateSE3 (10, 0, 0)) ⟨idM3, (1, 0, 0)⟩).t
        (SE3.mk idM3 (1, 0, 0)).t > (1/4) * 3
    ∧ registerStep (1/4) ⟨idM3, (1, 0, 0)⟩ [idSE3] (translateSE3 (10, 0, 0)) (1/2)
        = (compSE3 (translateSE3 (sub3 (1, 0, 0) idSE3.t)) ⟨idM3, (1, 0, 0)⟩, 0) := by
  have hc : (compSE3 (translateSE3 (10, 0, 0)) ⟨idM3, (1, 0, 0)⟩).t = ((11 : ℝ), 0, 0) := by
    norm_num [compSE3, translateSE3, mulVec3, dot3, add3, idM3]
  have hd : dist3 ((11 : ℝ), 0, 0) ((1 : ℝ), (0 : ℝ), (0 : ℝ)) = 10 := by
    rw [dist3_eval]; norm_num [sqrt_hundred]
  have hrej : dist3 (compSE3 (translateSE3 (10, 0, 0)) ⟨idM3, (1, 0, 0)⟩).t
      (SE3.mk idM3 (1, 0, 0)).t > (1/4) * 3 := by
    rw [hc]; rw [show (SE3.mk idM3 ((1 : ℝ), 0, 0)).t = ((1 : ℝ), (0 : ℝ), (0 : ℝ)) from rfl, hd]
    norm_num
  exact ⟨hrej, (registerStep_fallback_spec (1/4) (1/2) ⟨idM3, (1, 0, 0)⟩ idSE3 []
    (translateSE3 (10, 0, 0)) hrej).1⟩

/-! ### Claim C2: bounded translation change unless the fallback applied -/

theorem runFrom_length (mu : ℝ) :
    ∀ (rs : List (SE3 × ℝ)) (prev : SE3) (rest : List SE3),
      (runFrom mu prev rest rs).length = rs.length := by
  intro rs
  induction rs with
  | nil => intro _ _; rfl
  | cons hd tl ih =>
      intro prev rest
      obtain ⟨Tc, f⟩ := hd
      simp [runFrom, ih]

theorem runFrom_invariant (mu : ℝ) :
    ∀ (rs : List (SE3 × ℝ)) (prev : SE3) (rest : List SE3) (i : ℕ), i < rs.length →
      dist3 (((runFrom mu prev rest rs).getD i (idSE3, 0)).1).t
          (if i = 0 then prev else ((runFrom mu prev rest rs).getD (i-1) (idSE3, 0)).1).t
        ≤ mu * 3
      ∨ ((((runFrom mu prev rest rs).getD i (idSE3, 0)).2) = 0
         ∧ mu * 3 < dist3 (compSE3 ((rs.getD i (idSE3, 0)).1)
              (if i = 0 then prev else ((runFrom mu prev rest rs).getD (i-1) (idSE3, 0)).1)).t
              (if i = 0 then prev else ((runFrom mu prev rest rs).getD (i-1) (idSE3, 0)).1).t) := by
  intro rs
  induction rs with
  | nil => intro _ _ i hi; exact absurd hi (by simp)
  | cons hd tl ih =>
      intro prev rest i hi
      obtain ⟨Tc, f⟩ := hd
      match i with
      | 0 =>
          simp only [runFrom, List.getD_cons_zero, if_pos rfl]
          by_cases h : dist3 (compSE3 Tc prev).t prev.t > mu * 3
          · right
            refine ⟨?_, h⟩
            simp only [registerStep, if_pos h]
            cases rest <;> rfl
          · left
            have hr : registerStep mu prev rest Tc f = (compSE3 Tc prev, f) := by
              simp only [registerStep, if_neg h]
            rw [hr]
            exact le_of_not_lt h
      | Nat.succ j =>
          have hj : j < tl.length := by simpa using hi
          have h0 := ih (registerStep mu prev rest Tc f).1 (prev :: rest) j hj
          match j with
          | 0 => simpa [runFrom] using h0
          | Nat.succ k => simpa [runFrom] using h0

/-- Claim C2: after `run_on_sequence`, for every frame `i >= 1` the
translation change from the previous pose is at most `3 * expected_motion`,
unless the frame's fitness is 0 and the motion-model fallback was applied
(the candidate's translation jump exceeded the bound). -/
theorem runOnSequence_translation_invariant (mu : ℝ) (icpResults : List (SE3 × ℝ))
    (i : ℕ) (h1 : 1 ≤ i) (h2 : i < (runOnSequence mu icpResults).length) :
    dist3 (((runOnSequence mu icpResults).getD i (idSE3, 0)).1).t
        (((runOnSequence mu icpResults).getD (i-1) (idSE3, 0)).1).t ≤ mu * 3
    ∨ ((((runOnSequence mu icpResults).getD i (idSE3, 0)).2) = 0
       ∧ mu * 3 < dist3 (compSE3 ((icpResults.getD (i-1) (idSE3, 0)).1)
            (((runOnSequence mu icpResults).getD (i-1) (idSE3, 0)).1)).t
            (((runOnSequence mu icpResults).getD (i-1) (idSE3, 0)).1).t) := by
  obtain ⟨j, rfl⟩ : ∃ j, i = j + 1 := ⟨i - 1, by omega⟩
  have hj : j < icpResults.length := by
    have hlen : (runOnSequence mu icpResults).length = icpResults.length + 1 := by
      simp [runOnSequence, runFrom_length]
    omega
  have h0 := runFrom_invariant mu icpResults idSE3 [] j hj
  match j with
  | 0 => simpa [runOnSequence] using h0
  | Nat.succ k => simpa [runOnSequence] using h0

/-- Witness for C2 at a one-result sequence whose ICP correction is the
identity: frame 1 keeps the previous pose, so the translation change is 0. -/
theorem runOnSequence_translation_invariant_witness :
    dist3 (((runOnSequence (1/4) [(idSE3, 1)]).getD 1 (idSE3, 0)).1).t
        (((runOnSequence (1/4) [(idSE3, 1)]).getD 0 (idSE3, 0)).1).t ≤ (1/4) * 3
    ∨ ((((runOnSequence (1/4) [(idSE3, 1)]).getD 1 (idSE3, 0)).2) = 0
       ∧ (1/4) * 3 < dist3 (compSE3 ((([(idSE3, (1:ℝ))].getD 0 (idSE3, 0)).1))
            (((runOnSequence (1/4) [(idSE3, 1)]).getD 0 (idSE3, 0)).1)).t
            (((runOnSequence (1/4) [(idSE3, 1)]).getD 0 (idSE3, 0)).1).t) := by
  have hlen : 1 < (runOnSequence (1/4) [(idSE3, (1:ℝ))]).length := by
    simp [runOnSequence, runFrom_length]
  simpa using runOnSequence_translation_invariant (1/4) [(idSE3, 1)] 1 (le_refl 1) hlen

/-! ### Claim C5: spatial loop candidates are exactly the admissible pairs -/

/-- Claim C5: with the default gap 50 and distance threshold 5 m, the
candidate list contains exactly the pairs `(i, j)` with `j > i`,
`j - i >= 50` and translation distance strictly below 5. -/
theorem detectCandidates_mem (poses : List (ℕ × SE3)) (i j : ℕ) :
    (i, j) ∈ detectCandidates 50 5 poses
    ↔ ∃ Ti Tj : SE3, (i, Ti) ∈ poses ∧ (j, Tj) ∈ poses ∧ i < j
        ∧ 50 ≤ (j : ℤ) - (i : ℤ) ∧ dist3 Ti.t Tj.t < 5 := by
  simp only [detectCandidates, List.mem_flatMap, List.mem_filterMap]
  constructor
  · rintro ⟨⟨a, Ta⟩, ha, ⟨b, Tb⟩, hb, hok⟩
    split_ifs at hok with h1 h2
    simp at hok
    obtain ⟨rfl, rfl⟩ := hok
    have h1' : ¬((b : ℤ) - (a : ℤ) < 50) := h1
    have h2' : dist3 Ta.t Tb.t < 5 := h2
    exact ⟨Ta, Tb, ha, hb, by omega, by omega, h2'⟩
  · rintro ⟨Ti, Tj, hi, hj, hij, hgap, hdist⟩
    refine ⟨(i, Ti), hi, (j, Tj), hj, ?_⟩
    simp only [if_neg (not_lt.mpr hgap), if_pos hdist]

/-! ### Claim C6: Scan Context bins -/

theorem descriptor_foldl_bin (numSectors numRings : ℕ) (maxRange : ℝ) :
    ∀ (points : List P3) (d : ℕ → ℕ → ℝ) (r a : ℕ),
      (points.foldl
        (fun d p => fun r a =>
          if r = rangeIdx numRings maxRange p ∧ a = angleIdx numSectors p
          then max (d r a) p.2.2 else d r a) d) r a
      = ((points.filter (fun p =>
            r = rangeIdx numRings maxRange p ∧ a = angleIdx numSectors p)).map
          (fun p => p.2.2)).foldl max (d r a) := by
  intro points
  induction points with
  | nil => intro d r a; rfl
  | cons p ps ih =>
      intro d r a
      rw [List.foldl_cons, ih]
      by_cases h : r = rangeIdx numRings maxRange p ∧ a = angleIdx numSectors p
      · simp [List.filter_cons, h]
      · simp [List.filter_cons, h]

/-- Claim C6 (amended): each bin of the descriptor equals the maximum of 0
and the z coordinates of the points that fall in that bin (the bin array is
initialised to zero, so an all-negative-z bin reads 0, not its negative
maximum). -/
theorem computeDescriptor_bin_max (numSectors numRings : ℕ) (maxRange : ℝ)
    (points : List P3) (r a : ℕ) :
    computeDescriptor numSectors numRings maxRange points r a
      = ((points.filter (fun p =>
            r = rangeIdx numRings maxRange p ∧ a = angleIdx numSectors p)).map
          (fun p => p.2.2)).foldl max 0 :=
  descriptor_foldl_bin numSectors numRings maxRange points (fun _ _ => 0) r a

/-- Counterexample to C6 as stated: the single point `(1, 0, -1)` falls in
bin `(ring 0, sector 30)` of the default grid, yet that bin holds 0, not the
bin's maximum z coordinate `-1`. -/
theorem computeDescriptor_negz_counterexample :
    computeDescriptor 60 20 80 [((1 : ℝ), 0, -1)] 0 30 = 0
    ∧ rangeIdx 20 80 ((1 : ℝ), 0, -1) = 0
    ∧ angleIdx 60 ((1 : ℝ), 0, -1) = 30
    ∧ (0 : ℝ) ≠ -1 := by
  refine ⟨?_, ?_, ?_, by norm_num⟩
  · simp only [computeDescriptor, List.foldl_cons, List.foldl_nil]
    split_ifs with h
    · norm_num
    · rfl
  · have h1 : Real.sqrt ((1 : ℝ) ^ 2 + (0 : ℝ) ^ 2) = 1 := by
      norm_num
    have h2 : Real.sqrt ((1 : ℝ) ^ 2 + (0 : ℝ) ^ 2) / 80 * ((20 : ℕ) : ℝ) = 1/4 := by
      rw [h1]; norm_num
    have h3 : truncToInt (1/4 : ℝ) = 0 := by
      rw [truncToInt, if_pos (by norm_num)]
      rw [Int.floor_eq_zero_iff]
      constructor <;> norm_num
    show (clipZ (truncToInt (Real.sqrt ((1 : ℝ) ^ 2 + (0 : ℝ) ^ 2) / 80 * ((20 : ℕ) : ℝ)))
      0 ((20 : ℤ) - 1)).toNat = 0
    rw [h2, h3]
    decide
  · have harg : atan2 (0 : ℝ) 1 = 0 := by
      have hone : ((⟨1, 0⟩ : ℂ)) = 1 := by simp [Complex.ext_iff]
      rw [atan2, hone, Complex.arg_one]
    have hval : (atan2 (0 : ℝ) 1 + Real.pi) / (2 * Real.pi) * ((60 : ℕ) : ℝ) = 30 := by
      rw [harg]
      push_cast
      field_simp
      ring
    have h30 : truncToInt (30 : ℝ) = 30 := by
      rw [truncToInt, if_pos (by norm_num)]
      simp
    show (clipZ (truncToInt ((atan2 (0 : ℝ) 1 + Real.pi) / (2 * Real.pi) * ((60 : ℕ) : ℝ)))
      0 ((60 : ℤ) - 1)).toNat = 30
    rw [hval, h30]
    decide

/-! ### Claim C10: similarity lies in the unit interval -/

theorem le_foldl_max : ∀ (l : List ℝ) (b : ℝ), b ≤ l.foldl max b := by
  intro l
  induction l with
  | nil => intro b; exact le_refl b
  | cons x xs ih =>
      intro b
      rw [List.foldl_cons]
      exact le_trans (le_max_left b x) (ih (max b x))

theorem dotDesc_le_frob (numRings numSectors : ℕ) (f g : ℕ → ℕ → ℝ) :
    dotDesc numRings numSectors f g
      ≤ frobNorm numRings numSectors f * frobNorm numRings numSectors g := by
  rw [dotDesc, frobNorm, frobNorm, ← Finset.sum_product', ← Finset.sum_product',
    ← Finset.sum_product']
  exact Real.sum_mul_le_sqrt_mul_sqrt _ _ _

theorem foldl_guard_bounds (P : ℕ → Prop) [DecidablePred P] (v : ℕ → ℝ)
    (hv : ∀ s, P s → v s ≤ 1) :
    ∀ (l : List ℕ) (b : ℝ), 0 ≤ b → b ≤ 1 →
      0 ≤ l.foldl (fun best s => if P s then max best (v s) else best) b
      ∧ l.foldl (fun best s => if P s then max best (v s) else best) b ≤ 1 := by
  intro l
  induction l with
  | nil => intro b h0 h1; exact ⟨h0, h1⟩
  | cons s ss ih =>
      intro b h0 h1
      rw [List.foldl_cons]
      by_cases h : P s
      · rw [if_pos h]
        exact ih _ (le_trans h0 (le_max_left _ _)) (max_le h1 (hv s h))
      · rw [if_neg h]
        exact ih _ h0 h1

theorem foldl_guard_none (P : ℕ → Prop) [DecidablePred P] (v : ℕ → ℝ)
    (hv : ∀ s, ¬ P s) :
    ∀ (l : List ℕ) (b : ℝ),
      l.foldl (fun best s => if P s then max best (v s) else best) b = b := by
  intro l
  induction l with
  | nil => intro b; rfl
  | cons s ss ih =>
      intro b
      rw [List.foldl_cons, if_neg (hv s)]
      exact ih b

theorem frobNorm_zero_entries (numRings numSectors : ℕ) (d : ℕ → ℕ → ℝ)
    (h : frobNorm numRings numSectors d = 0) :
    ∀ r < numRings, ∀ a < numSectors, d r a = 0 := by
  have hnn : (0 : ℝ) ≤ ∑ r ∈ Finset.range numRings, ∑ a ∈ Finset.range numSectors, d r a ^ 2 :=
    Finset.sum_nonneg fun r _ => Finset.sum_nonneg fun a _ => sq_nonneg _
  have hsum : ∑ r ∈ Finset.range numRings, ∑ a ∈ Finset.range numSectors, d r a ^ 2 = 0 :=
    le_antisymm (Real.sqrt_eq_zero'.mp h) hnn
  intro r hr a ha
  have hrow := (Finset.sum_eq_zero_iff_of_nonneg
    (fun r _ => Finset.sum_nonneg fun a _ => sq_nonneg (d r a))).mp hsum r
    (Finset.mem_range.mpr hr)
  have hcell := (Finset.sum_eq_zero_iff_of_nonneg
    (fun a _ => sq_nonneg (d r a))).mp hrow a (Finset.mem_range.mpr ha)
  exact pow_eq_zero_iff (n := 2) (by norm_num) |>.mp hcell

theorem frobNorm_roll_zero (numRings numSectors : ℕ) (d : ℕ → ℕ → ℝ)
    (h : frobNorm numRings numSectors d = 0) (shift : ℕ) :
    frobNorm numRings numSectors (rollCols numSectors shift d) = 0 := by
  have hz := frobNorm_zero_entries numRings numSectors d h
  rw [frobNorm]
  have : ∑ r ∈ Finset.range numRings, ∑ a ∈ Finset.range numSectors,
      rollCols numSectors shift d r a ^ 2 = 0 := by
    refine Finset.sum_eq_zero fun r hr => Finset.sum_eq_zero fun a ha => ?_
    have hS : 0 < numSectors := lt_of_le_of_lt (Nat.zero_le a) (Finset.mem_range.mp ha)
    have hidx : (a + numSectors - shift % numSectors) % numSectors < numSectors :=
      Nat.mod_lt _ hS
    rw [rollCols, hz r (Finset.mem_range.mp hr) _ hidx]
    norm_num
  rw [this, Real.sqrt_zero]

/-- Claim C10: descriptors have non-negative entries, the pairwise
similarity lies in `[0, 1]`, and it is 0 when either descriptor has zero
Frobenius norm. -/
theorem scanContext_similarity_unit (numSectors numRings : ℕ) (maxRange : ℝ)
    (pts1 pts2 : List P3) :
    (∀ r a, 0 ≤ computeDescriptor numSectors numRings maxRange pts1 r a)
    ∧ 0 ≤ computeSimilarity numRings numSectors
        (computeDescriptor numSectors numRings maxRange pts1)
        (computeDescriptor numSectors numRings maxRange pts2)
    ∧ computeSimilarity numRings numSectors
        (computeDescriptor numSectors numRings maxRange pts1)
        (computeDescriptor numSectors numRings maxRange pts2) ≤ 1
    ∧ ((frobNorm numRings numSectors (computeDescriptor numSectors numRings maxRange pts1) = 0
        ∨ frobNorm numRings numSectors (computeDescriptor numSectors numRings maxRange pts2) = 0)
       → computeSimilarity numRings numSectors
            (computeDescriptor numSectors numRings maxRange pts1)
            (computeDescriptor numSectors numRings maxRange pts2) = 0) := by
  set d1 := computeDescriptor numSectors numRings maxRange pts1 with hd1
  set d2 := computeDescriptor numSectors numRings maxRange pts2 with hd2
  have hbounds : ∀ e1 e2 : ℕ → ℕ → ℝ,
      0 ≤ computeSimilarity numRings numSectors e1 e2
      ∧ computeSimilarity numRings numSectors e1 e2 ≤ 1 := by
    intro e1 e2
    have hv : ∀ s : ℕ,
        (0 < frobNorm numRings numSectors e1
          ∧ 0 < frobNorm numRings numSectors (rollCols numSectors s e2)) →
        dotDesc numRings numSectors e1 (rollCols numSectors s e2)
          / (frobNorm numRings numSectors e1
              * frobNorm numRings numSectors (rollCols numSectors s e2)) ≤ 1 := by
      intro s hs
      exact div_le_one (mul_pos hs.1 hs.2) |>.mpr (dotDesc_le_frob _ _ _ _)
    exact foldl_guard_bounds _ _ hv (List.range numSectors) 0 (le_refl 0) (by norm_num)
  refine ⟨?_, (hbounds d1 d2).1, (hbounds d1 d2).2, ?_⟩
  · intro r a
    rw [hd1, computeDescriptor]
    rw [descriptor_foldl_bin]
    exact le_foldl_max _ 0
  · intro hzero
    rcases hzero with h1 | h2
    · refine foldl_guard_none _ _ ?_ (List.range numSectors) 0
      intro s hs
      rw [h1] at hs
      exact lt_irrefl 0 hs.1
    · refine foldl_guard_none _ _ ?_ (List.range numSectors) 0
      intro s hs
      rw [frobNorm_roll_zero numRings numSectors d2 h2 s] at hs
      exact lt_irrefl 0 hs.2

/-- Witness for C10: two empty point clouds give the zero descriptor, whose
Frobenius norm is 0, and the similarity is then 0. -/
theorem scanContext_similarity_unit_witness :
    frobNorm 20 60 (computeDescriptor 60 20 80 ([] : List P3)) = 0
    ∧ computeSimilarity 20 60 (computeDescriptor 60 20 80 ([] : List P3))
        (computeDescriptor 60 20 80 ([] : List P3)) = 0 := by
  have h0 : frobNorm 20 60 (computeDescriptor 60 20 80 ([] : List P3)) = 0 := by
    show frobNorm 20 60 (fun _ _ => (0 : ℝ)) = 0
    simp [frobNorm]
  exact ⟨h0, (scanContext_similarity_unit 60 20 80 [] []).2.2.2 (Or.inl h0)⟩

/-! ### Claim C9: the odometry-chain convenience constructor -/

theorem buildChain_spec :
    ∀ (rest : List M4) (st : GraphState) (prev : M4) (i : ℕ),
      (∀ k ∈ st.poseIds, k < i) →
      buildChain st prev i rest = GraphState.mk
        (st.graph ++ (List.enumFrom i ((prev :: rest).zip rest)).map
          (fun x => Factor.betweenOdom (x.1 - 1) x.1 ((x.2.1⁻¹) * x.2.2)))
        (st.initialEstimates ++ List.enumFrom i rest)
        (st.poseIds ++ List.range' i rest.length)
        (st.nOdomFactors + rest.length)
        st.nLoopFactors := by
  intro rest
  induction rest with
  | nil =>
      intro st prev i h
      cases st
      simp [buildChain]
  | cons p ps ih =>
      intro st prev i h
      have hmem : i ∉ st.poseIds := fun hi => lt_irrefl i (h i hi)
      have hstep : buildChain st prev i (p :: ps)
          = buildChain (addInitialEstimate (addOdometryFactor st (i - 1) i (prev⁻¹ * p)) i p)
              p (i + 1) ps := rfl
      rw [hstep, ih _ p (i + 1) ?hcond]
      case hcond =>
        intro k hk
        simp only [addInitialEstimate, addOdometryFactor, if_neg hmem, List.mem_append,
          List.mem_singleton] at hk
        rcases hk with hk | rfl
        · exact Nat.lt_succ_of_lt (h k hk)
        · exact Nat.lt_succ_self k
      simp only [addInitialEstimate, addOdometryFactor, if_neg hmem]
      simp only [List.zip_cons_cons, List.enumFrom, List.map_cons, List.length_cons,
        List.range'_succ, GraphState.mk.injEq]
      refine ⟨?_, ?_, ?_, by omega, by trivial⟩ <;> simp [List.zip, List.append_assoc]

/-- Claim C9: for `N >= 1` absolute poses, the convenience constructor adds
exactly one prior factor, at vertex 0 with the first pose; exactly one
initial estimate per vertex (so the tracked id set is `{0, ..., N-1}`); and
exactly `N-1` odometry between factors, the one connecting `i-1` to `i`
carrying `inverse(P[i-1]) * P[i]`; for `N = 0` it returns an empty result
and adds no factors. -/
theorem buildFromOdometry_spec (optimize : GraphState → List (ℕ × M4))
    (odomPoses : List M4) :
    (odomPoses = [] → buildFromOdometry optimize odomPoses = (initGraphState, []))
    ∧ (odomPoses ≠ [] →
        (buildFromOdometry optimize odomPoses).1.graph
          = Factor.prior 0 (odomPoses.getD 0 1)
            :: (List.range (odomPoses.length - 1)).map (fun k =>
                Factor.betweenOdom k (k + 1)
                  (((odomPoses.getD k 1)⁻¹) * (odomPoses.getD (k + 1) 1)))
        ∧ (buildFromOdometry optimize odomPoses).1.initialEstimates
          = (List.range odomPoses.length).map (fun k => (k, odomPoses.getD k 1))
        ∧ (buildFromOdometry optimize odomPoses).1.poseIds = List.range odomPoses.length
        ∧ (buildFromOdometry optimize odomPoses).1.nOdomFactors = odomPoses.length - 1
        ∧ (buildFromOdometry optimize odomPoses).1.nLoopFactors = 0) := by
  constructor
  · rintro rfl
    rfl
  · intro hne
    obtain ⟨p0, rest, rfl⟩ : ∃ p0 rest, odomPoses = p0 :: rest := by
      cases odomPoses with
      | nil => exact absurd rfl hne
      | cons a l => exact ⟨a, l, rfl⟩
    have hst1 : addInitialEstimate (addPrior initGraphState 0 p0) 0 p0
        = GraphState.mk [Factor.prior 0 p0] [(0, p0)] [0] 0 0 := by
      simp [addInitialEstimate, addPrior, initGraphState]
    have hcond : ∀ k ∈ (GraphState.mk [Factor.prior 0 p0] [(0, p0)] [0] 0 0).poseIds,
        k < 1 := by
      intro k hk
      simp at hk
      omega
    have hfinal : buildFromOdometry optimize (p0 :: rest)
        = (buildChain (GraphState.mk [Factor.prior 0 p0] [(0, p0)] [0] 0 0) p0 1 rest,
           optimize (buildChain (GraphState.mk [Factor.prior 0 p0] [(0, p0)] [0] 0 0) p0 1 rest)) := by
      show (buildChain (addInitialEstimate (addPrior initGraphState 0 p0) 0 p0) p0 1 rest,
        optimize (buildChain (addInitialEstimate (addPrior initGraphState 0 p0) 0 p0) p0 1 rest))
        = _
      rw [hst1]
    rw [hfinal, buildChain_spec rest _ p0 1 hcond]
    refine ⟨?_, ?_, ?_, by simp, rfl⟩
    · simp only [List.length_cons, Nat.add_sub_cancel, List.getD_cons_zero,
        List.singleton_append, List.cons.injEq, true_and]
      refine List.ext_getElem ?_ ?_
      · simp [List.length_zip]
      · intro k hk1 hk2
        have hk : k < rest.length := by
          simpa [List.length_zip] using hk1
        simp only [List.getElem_map, List.getElem_enumFrom, List.getElem_zip,
          List.getElem_range]
        have e1 : 1 + k - 1 = k := by omega
        have e2 : 1 + k = k + 1 := by omega
        rw [e1, e2, List.getD_eq_getElem _ _ (by simp; omega),
          List.getD_eq_getElem _ _ (by simp; omega)]
        rfl
    · have hcons : ([((0 : ℕ), p0)] ++ List.enumFrom 1 rest) = List.enumFrom 0 (p0 :: rest) :=
        rfl
      rw [hcons]
      refine List.ext_getElem ?_ ?_
      · simp
      · intro k hk1 hk2
        have hk : k < rest.length + 1 := by simpa using hk1
        simp only [List.getElem_enumFrom, List.getElem_map, List.getElem_range]
        rw [List.getD_eq_getElem _ _ (by simpa using hk)]
        simp
    · rw [List.range_eq_range', List.length_cons, List.range'_succ]
      rfl

/-- Witness for C9 at the one-pose input `[I]`: one prior at vertex 0, one
initial estimate, id set `{0}`, and no between factors. -/
theorem buildFromOdometry_spec_witness :
    ([(1 : M4)] ≠ ([] : List M4))
    ∧ (buildFromOdometry (fun _ => []) [(1 : M4)]).1.graph = [Factor.prior 0 (1 : M4)]
    ∧ (buildFromOdometry (fun _ => []) [(1 : M4)]).1.initialEstimates = [(0, (1 : M4))]
    ∧ (buildFromOdometry (fun _ => []) [(1 : M4)]).1.poseIds = [0]
    ∧ (buildFromOdometry (fun _ => []) [(1 : M4)]).1.nOdomFactors = 0 := by
  have h : [(1 : M4)] ≠ ([] : List M4) := by simp
  have hs := (buildFromOdometry_spec (fun _ => []) [(1 : M4)]).2 h
  refine ⟨h, ?_, ?_, ?_, ?_⟩
  · rw [hs.1]; rfl
  · rw [hs.2.1]; rfl
  · rw [hs.2.2.1]; rfl
  · rw [hs.2.2.2.1]; rfl

/-! ### Claim C8: empty input frames -/

/-- Claim C8 (amended): a zero-length `pointcloud` payload makes the
operator return immediately: the internal state (pose list, world clouds,
frame counter) is unchanged and no message at all is emitted — in
particular, no pose is re-sent and no fitness is reported. -/
theorem onPointcloudEvent_empty (icp : List P3 → List P3 → SE3 × ℝ × ℝ)
    (st : OpState) : onPointcloudEvent icp st [] = (st, []) := rfl

/-- Counterexample to C8 as stated: on an empty frame the operator emits
nothing, so no `odometry_status` message (and hence no fitness of 0) is
reported, contrary to the claim; the state is indeed unchanged. -/
theorem onPointcloudEvent_empty_counterexample :
    (onPointcloudEvent (fun _ _ => (idSE3, 1, 0)) initOpState []).1 = initOpState
    ∧ ¬ ∃ v : List ℝ, ("odometry_status", v)
        ∈ (onPointcloudEvent (fun _ _ => (idSE3, 1, 0)) initOpState []).2 := by
  refine ⟨rfl, ?_⟩
  rintro ⟨v, hv⟩
  simp [onPointcloudEvent] at hv

/-! ### Claim C7: minimum-spacing filter -/

theorem fbdAux_chain (minDist : ℝ) :
    ∀ (rest : List P3) (lastKept : P3),
      List.Chain (fun a b => minDist ≤ dist2 (proj2 b) (proj2 a)) lastKept
        (fbdAux minDist lastKept rest) := by
  intro rest
  induction rest with
  | nil => intro lastKept; exact List.Chain.nil
  | cons p ps ih =>
      intro lastKept
      rw [fbdAux]
      split_ifs with h
      · exact List.Chain.cons h (ih p)
      · exact ih lastKept

theorem filterByDistance_chain (minDist : ℝ) (positions : List P3) :
    List.Chain' (fun a b => minDist ≤ dist2 (proj2 b) (proj2 a))
      (filterByDistance minDist positions) := by
  cases positions with
  | nil => exact List.chain'_nil
  | cons p rest => exact fbdAux_chain minDist rest p

/-- Counterexample to C7 as stated: a candidate at distance exactly `s_min`
is kept by the code (`dist >= min_distance`), but would be dropped by the
claim's "distance ... exceeds s_min" rule. -/
theorem filterByDistance_boundary_counterexample :
    filterByDistance (1/2) [((0 : ℝ), 0, 0), (1/2, 0, 0)]
      ≠ claimFilterStrict (1/2) [((0 : ℝ), 0, 0), (1/2, 0, 0)] := by
  have hd : dist2 (proj2 ((1/2 : ℝ), (0 : ℝ), (0 : ℝ))) (proj2 ((0 : ℝ), (0 : ℝ), (0 : ℝ)))
      = 1/2 := by
    rw [dist2, proj2, proj2, norm2]
    rw [show dot2 (sub2 (1/2, 0) (0, 0)) (sub2 ((1/2 : ℝ), (0 : ℝ)) (0, 0)) = (1/2 : ℝ)^2 by
      simp [dot2, sub2]; norm_num]
    exact Real.sqrt_sq (by norm_num)
  have hL : filterByDistance (1/2) [((0 : ℝ), 0, 0), (1/2, 0, 0)]
      = [((0 : ℝ), 0, 0), (1/2, 0, 0)] := by
    show ((0 : ℝ), (0 : ℝ), (0 : ℝ)) :: fbdAux (1/2) ((0 : ℝ), 0, 0) [(1/2, 0, 0)] = _
    rw [fbdAux, if_pos (by rw [hd])]
    rfl
  have hR : claimFilterStrict (1/2) [((0 : ℝ), 0, 0), (1/2, 0, 0)] = [((0 : ℝ), 0, 0)] := by
    show ((0 : ℝ), (0 : ℝ), (0 : ℝ)) :: claimFilterStrictAux (1/2) ((0 : ℝ), 0, 0)
      [(1/2, 0, 0)] = _
    rw [claimFilterStrictAux, if_neg (by rw [hd]; norm_num)]
    rfl
  rw [hL, hR]
  simp

/-- Claim C7 (amended): with simplification off and the Z-band filter
disabled, consecutive extracted waypoints are at least `s_min` apart; the
filter keeps the first projected point and thereafter keeps each candidate
whose distance to the last kept point is AT LEAST `s_min` (a candidate at
distance exactly `s_min` is kept). -/
theorem waypoint_spacing_spec (cfg : WaypointConfig) (poses : List SE3)
    (hs : cfg.simplify = false) (hz : cfg.zThreshold = none) :
    (∀ i : ℕ, i + 1 < (extract cfg poses).length →
      cfg.minDistance ≤ dist2 ((extract cfg poses).getD (i+1) (0, 0))
        ((extract cfg poses).getD i (0, 0)))
    ∧ (extract cfg poses).head? = (poses.map (fun T => proj2 T.t)).head?
    ∧ (∀ (lastKept p : P3) (rest : List P3),
        cfg.minDistance ≤ dist2 (proj2 p) (proj2 lastKept) →
        fbdAux cfg.minDistance lastKept (p :: rest)
          = p :: fbdAux cfg.minDistance p rest) := by
  refine ⟨?_, ?_, ?_⟩
  · intro i hi
    cases poses with
    | nil => simp [extract] at hi
    | cons T rest =>
        have hout : extract cfg (T :: rest)
            = (filterByDistance cfg.minDistance ((T :: rest).map (fun T => T.t))).map proj2 := by
          show ((match cfg.zThreshold with
            | none => filterByDistance cfg.minDistance ((T :: rest).map (fun T => T.t))
            | some thr => filterByZ thr
                (filterByDistance cfg.minDistance ((T :: rest).map (fun T => T.t)))) |>
            (fun w2 => (if cfg.simplify then simplifyTrajectory cfg.simplifyTolerance w2
              else w2).map proj2)) = _
          rw [hz, hs]
          simp
        rw [hout] at hi ⊢
        have hchain : List.Chain' (fun a b : P2 => cfg.minDistance ≤ dist2 b a)
            ((filterByDistance cfg.minDistance ((T :: rest).map (fun T => T.t))).map proj2) := by
          rw [List.chain'_map]
          exact filterByDistance_chain cfg.minDistance _
        have hlen := hi
        rw [List.chain'_iff_get] at hchain
        have := hchain i (by omega)
        rwa [List.getD_eq_getElem _ _ (by omega), List.getD_eq_getElem _ _ (by omega)]
  · cases poses with
    | nil => rfl
    | cons T rest =>
        have hout : extract cfg (T :: rest)
            = (filterByDistance cfg.minDistance ((T :: rest).map (fun T => T.t))).map proj2 := by
          show ((match cfg.zThreshold with
            | none => filterByDistance cfg.minDistance ((T :: rest).map (fun T => T.t))
            | some thr => filterByZ thr
                (filterByDistance cfg.minDistance ((T :: rest).map (fun T => T.t)))) |>
            (fun w2 => (if cfg.simplify then simplifyTrajectory cfg.simplifyTolerance w2
              else w2).map proj2)) = _
          rw [hz, hs]
          simp
        rw [hout]
        rfl
  · intro lastKept p rest h
    rw [fbdAux, if_pos h]

/-- Witness for C7's amended theorem at a single-pose trajectory with the
default spacing. -/
theorem waypoint_spacing_spec_witness :
    (extract ⟨1/2, false, 1/10, none⟩ [idSE3]).head? = some ((0 : ℝ), (0 : ℝ)) :=
  ((waypoint_spacing_spec ⟨1/2, false, 1/10, none⟩ [idSE3] rfl rfl).2.1).trans rfl

/-! ### Claim C3: Douglas-Peucker geometry lemmas -/

theorem dot2_self_nonneg (a : P2) : 0 ≤ dot2 a a := by
  rw [dot2]
  nlinarith [mul_self_nonneg a.1, mul_self_nonneg a.2]

theorem norm2_sq (a : P2) : norm2 a ^ 2 = dot2 a a := by
  rw [norm2]
  exact Real.sq_sqrt (dot2_self_nonneg a)

theorem norm2_nonneg (a : P2) : 0 ≤ norm2 a := Real.sqrt_nonneg _

theorem distPtLine_nonneg (s u p : P2) : 0 ≤ distPtLine s u p := Real.sqrt_nonneg _

theorem distPtLine_self (s u : P2) : distPtLine s u s = 0 := by
  rw [distPtLine, norm2]
  rw [show dot2 (sub2 s (add2 s (smul2 (dot2 (sub2 s s) u) u)))
      (sub2 s (add2 s (smul2 (dot2 (sub2 s s) u) u))) = 0 by
    simp [dot2, sub2, add2, smul2]]
  exact Real.sqrt_zero

theorem distLagrange (d1 d2 v1 v2 n : ℝ) (hn : n * n = d1 * d1 + d2 * d2) (hn0 : n ≠ 0) :
    ((v1 - (v1 * (d1/n) + v2 * (d2/n)) * (d1/n)) ^ 2
      + (v2 - (v1 * (d1/n) + v2 * (d2/n)) * (d2/n)) ^ 2) * (d1 * d1 + d2 * d2)
    = (d1 * v2 - d2 * v1) ^ 2 := by
  have hA : v1 - (v1 * (d1/n) + v2 * (d2/n)) * (d1/n) = d2 * (v1*d2 - v2*d1) / (n*n) := by
    field_simp
    linear_combination v1 * hn
  have hB : v2 - (v1 * (d1/n) + v2 * (d2/n)) * (d2/n) = d1 * (v2*d1 - v1*d2) / (n*n) := by
    field_simp
    linear_combination v2 * hn
  rw [hA, hB]
  field_simp
  linear_combination (-(v1*d2 - v2*d1)^2) * (n*n + d1*d1 + d2*d2) * hn

theorem distPtLine_sq (s f p : P2) (h : dot2 (sub2 f s) (sub2 f s) ≠ 0) :
    distPtLine s (div2 (sub2 f s) (norm2 (sub2 f s))) p ^ 2 * dot2 (sub2 f s) (sub2 f s)
    = cross2 (sub2 f s) (sub2 p s) ^ 2 := by
  obtain ⟨s1, s2⟩ := s
  obtain ⟨f1, f2⟩ := f
  obtain ⟨p1, p2⟩ := p
  have hL : 0 < dot2 (sub2 (f1, f2) (s1, s2)) (sub2 (f1, f2) (s1, s2)) :=
    lt_of_le_of_ne (dot2_self_nonneg _) (Ne.symm h)
  have hn : norm2 (sub2 (f1, f2) (s1, s2)) * norm2 (sub2 (f1, f2) (s1, s2))
      = dot2 (sub2 (f1, f2) (s1, s2)) (sub2 (f1, f2) (s1, s2)) := Real.mul_self_sqrt hL.le
  have hn0 : norm2 (sub2 (f1, f2) (s1, s2)) ≠ 0 := by
    rw [norm2]
    exact (Real.sqrt_pos.mpr hL).ne'
  rw [distPtLine, norm2_sq]
  simp only [sub2, add2, smul2, div2, dot2, cross2] at hn ⊢
  linear_combination distLagrange (f1 - s1) (f2 - s2) (p1 - s1) (p2 - s2)
    (norm2 (f1 - s1, f2 - s2)) hn hn0

theorem distPtLine_eq_zero_iff (s f p : P2) (h : dot2 (sub2 f s) (sub2 f s) ≠ 0) :
    distPtLine s (div2 (sub2 f s) (norm2 (sub2 f s))) p = 0
      ↔ cross2 (sub2 f s) (sub2 p s) = 0 := by
  have hL : 0 < dot2 (sub2 f s) (sub2 f s) :=
    lt_of_le_of_ne (dot2_self_nonneg _) (Ne.symm h)
  have hkey := distPtLine_sq s f p h
  constructor
  · intro h0
    rw [h0] at hkey
    have : cross2 (sub2 f s) (sub2 p s) ^ 2 = 0 := by linarith [hkey]
    exact pow_eq_zero_iff (n := 2) (by norm_num) |>.mp this
  · intro hc
    rw [hc] at hkey
    have h2 : distPtLine s (div2 (sub2 f s) (norm2 (sub2 f s))) p ^ 2 = 0 := by
      rcases mul_eq_zero.mp (by linarith [hkey] :
        distPtLine s (div2 (sub2 f s) (norm2 (sub2 f s))) p ^ 2
          * dot2 (sub2 f s) (sub2 f s) = 0) with h' | h'
      · exact h'
      · exact absurd h' h
    exact pow_eq_zero_iff (n := 2) (by norm_num) |>.mp h2

theorem distPtLine_finish (s f : P2) (h : dot2 (sub2 f s) (sub2 f s) ≠ 0) :
    distPtLine s (div2 (sub2 f s) (norm2 (sub2 f s))) f = 0 := by
  rw [distPtLine_eq_zero_iff s f f h, cross2]
  ring

theorem foldl_max_mem : ∀ (l : List ℝ) (b : ℝ), l.foldl max b = b ∨ l.foldl max b ∈ l := by
  intro l
  induction l with
  | nil => intro b; exact Or.inl rfl
  | cons x xs ih =>
      intro b
      rw [List.foldl_cons]
      rcases ih (max b x) with h | h
      · rcases max_choice b x with hm | hm
        · exact Or.inl (h.trans hm)
        · exact Or.inr (by rw [h, hm]; exact List.mem_cons_self x xs)
      · exact Or.inr (List.mem_cons_of_mem x h)

theorem mem_le_foldl_max : ∀ (l : List ℝ) (b x : ℝ), x ∈ l → x ≤ l.foldl max b := by
  intro l
  induction l with
  | nil => intro b x hx; exact absurd hx (List.not_mem_nil x)
  | cons y ys ih =>
      intro b x hx
      rw [List.foldl_cons]
      rcases List.mem_cons.mp hx with rfl | hx
      · exact le_trans (le_max_right b x) (le_foldl_max ys (max b x))
      · exact ih (max b y) x hx

theorem foldl_max_le : ∀ (l : List ℝ) (b c : ℝ), b ≤ c → (∀ x ∈ l, x ≤ c) →
    l.foldl max b ≤ c := by
  intro l
  induction l with
  | nil => intro b c hb _; exact hb
  | cons x xs ih =>
      intro b c hb hall
      rw [List.foldl_cons]
      exact ih (max b x) c (max_le hb (hall x (List.mem_cons_self x xs)))
        (fun y hy => hall y (List.mem_cons_of_mem x hy))

theorem dpDistances_length (points : List P2) :
    (dpDistances points).length = points.length := by
  rw [dpDistances, List.length_map]

theorem dpFinish_eq_getLast (points : List P2) (h : points ≠ []) :
    dpFinish points = points.getLast h := by
  rw [dpFinish, List.getLastD_eq_getLast?, List.getLast?_eq_getLast points h]
  rfl

theorem dpLineLen_dot_pos (points : List P2) (h6 : ¬ dpLineLen points < 1/1000000) :
    0 < dot2 (sub2 (dpFinish points) (dpStart points))
        (sub2 (dpFinish points) (dpStart points)) := by
  have h : (0:ℝ) < dpLineLen points := lt_of_lt_of_le (by norm_num) (not_lt.mp h6)
  rw [dpLineLen, norm2] at h
  exact Real.sqrt_pos.mp h

theorem dpFinish_dist_zero (points : List P2) (h6 : ¬ dpLineLen points < 1/1000000) :
    distPtLine (dpStart points) (dpUnit points) (dpFinish points) = 0 := by
  rw [dpUnit, dpLineLen]
  exact distPtLine_finish (dpStart points) (dpFinish points) (dpLineLen_dot_pos points h6).ne'

theorem dp_maxIdx_bounds (points : List P2) (tol : ℝ) (htol : 0 ≤ tol)
    (h3 : ¬ points.length < 3) (h6 : ¬ dpLineLen points < 1/1000000)
    (hgt : dpMaxDist points > tol) :
    1 ≤ dpMaxIdx points ∧ dpMaxIdx points + 1 < points.length := by
  have hpos : 0 < dpMaxDist points := lt_of_le_of_lt htol hgt
  have hmem : dpMaxDist points ∈ dpDistances points := by
    rcases foldl_max_mem (dpDistances points) 0 with h | h
    · exfalso
      rw [dpMaxDist] at hpos
      rw [h] at hpos
      exact lt_irrefl 0 hpos
    · rw [dpMaxDist]
      exact h
  have hlt : dpMaxIdx points < (dpDistances points).length := by
    rw [dpMaxIdx]
    exact List.indexOf_lt_length.mpr hmem
  have hval : (dpDistances points).get ⟨dpMaxIdx points, hlt⟩ = dpMaxDist points := by
    rw [List.get_eq_getElem]
    exact List.getElem_indexOf hlt
  obtain ⟨q, qs, rfl⟩ : ∃ q qs, points = q :: qs := by
    cases points with
    | nil => simp at h3
    | cons a l => exact ⟨a, l, rfl⟩
  have hlen : dpMaxIdx (q :: qs) < (q :: qs).length := by
    rw [dpDistances_length] at hlt
    exact hlt
  have h0 : distPtLine (dpStart (q :: qs)) (dpUnit (q :: qs)) q = 0 := distPtLine_self q _
  have hge1 : 1 ≤ dpMaxIdx (q :: qs) := by
    have hne0 : distPtLine (dpStart (q :: qs)) (dpUnit (q :: qs)) q ≠ dpMaxDist (q :: qs) := by
      rw [h0]
      exact ne_of_lt hpos
    have hidx : dpMaxIdx (q :: qs)
        = ((qs.map (fun p => distPtLine (dpStart (q :: qs)) (dpUnit (q :: qs)) p)).indexOf
            (dpMaxDist (q :: qs))) + 1 := by
      rw [dpMaxIdx]
      exact List.indexOf_cons_ne _ hne0
    omega
  have hne_last : dpMaxIdx (q :: qs) ≠ (q :: qs).length - 1 := by
    intro heq
    have hi : (q :: qs).length - 1 < (dpDistances (q :: qs)).length := by
      rw [dpDistances_length]
      simp
    have hi' : (q :: qs).length - 1 < (q :: qs).length := by simp
    have hlast0 : (dpDistances (q :: qs)).get ⟨(q :: qs).length - 1, hi⟩ = 0 := by
      have hmap : (dpDistances (q :: qs)).get ⟨(q :: qs).length - 1, hi⟩
          = distPtLine (dpStart (q :: qs)) (dpUnit (q :: qs))
              ((q :: qs).get ⟨(q :: qs).length - 1, hi'⟩) := by
        simp only [List.get_eq_getElem, dpDistances, List.getElem_map]
      have hlastelem : (q :: qs).get ⟨(q :: qs).length - 1, hi'⟩
          = (q :: qs).getLast (by simp) := by
        rw [List.get_eq_getElem]
        exact (List.getLast_eq_getElem _ _).symm
      rw [hmap, hlastelem, ← dpFinish_eq_getLast (q :: qs) (by simp)]
      exact dpFinish_dist_zero (q :: qs) h6
    have hfin : (⟨dpMaxIdx (q :: qs), hlt⟩ : Fin (dpDistances (q :: qs)).length)
        = ⟨(q :: qs).length - 1, hi⟩ := Fin.ext heq
    rw [hfin] at hval
    rw [hlast0] at hval
    exact (ne_of_lt hpos) hval
  exact ⟨hge1, by omega⟩

theorem length_ge_two_of_head_last {l : List ℕ} {a b : ℕ} (ha : l.head? = some a)
    (hb : l.getLast? = some b) (hab : a ≠ b) : 2 ≤ l.length := by
  match l with
  | [] => simp at ha
  | [x] =>
      simp at ha hb
      omega
  | x :: y :: t => simp

theorem head?_dropLast {l : List ℕ} (h : 2 ≤ l.length) : l.dropLast.head? = l.head? := by
  match l with
  | [] => simp at h
  | [x] => simp at h
  | x :: y :: t => rfl

theorem dpAux_shape :
    ∀ (fuel : ℕ) (points : List P2) (tol : ℝ),
      points.length ≤ fuel → 0 ≤ tol → 1 ≤ points.length →
      (dpAux fuel points tol).head? = some 0
      ∧ (dpAux fuel points tol).getLast? = some (points.length - 1)
      ∧ List.Chain' (· < ·) (dpAux fuel points tol)
      ∧ ∀ m ∈ dpAux fuel points tol, m < points.length := by
  intro fuel
  induction fuel with
  | zero => intro points tol hf htol h1; omega
  | succ fuel ih =>
      intro points tol hf htol h1
      simp only [dpAux]
      by_cases h3 : points.length < 3
      · rw [if_pos h3]
        obtain ⟨m, hm⟩ : ∃ m, points.length = m + 1 := ⟨points.length - 1, by omega⟩
        refine ⟨?_, ?_, ?_, ?_⟩
        · rw [hm, List.range_succ_eq_map]; rfl
        · rw [hm, List.range_succ, List.getLast?_concat]; simp
        · exact (List.pairwise_lt_range _).chain'
        · intro x hx; exact List.mem_range.mp hx
      · rw [if_neg h3]
        by_cases h6 : dpLineLen points < 1/1000000
        · rw [if_pos h6]
          refine ⟨rfl, rfl, ?_, ?_⟩
          · simp [List.chain'_cons]
            omega
          · intro x hx
            simp at hx
            rcases hx with rfl | rfl <;> omega
        · rw [if_neg h6]
          by_cases hgt : dpMaxDist points > tol
          · rw [if_pos hgt]
            obtain ⟨hge1, hlt⟩ := dp_maxIdx_bounds points tol htol h3 h6 hgt
            set m := dpMaxIdx points with hmdef
            have htake_len : (points.take (m + 1)).length = m + 1 := by
              rw [List.length_take]; omega
            have hdrop_len : (points.drop m).length = points.length - m := by
              rw [List.length_drop]
            have ihL := ih (points.take (m + 1)) tol (by rw [htake_len]; omega) htol
              (by rw [htake_len]; omega)
            have ihR := ih (points.drop m) tol (by rw [hdrop_len]; omega) htol
              (by rw [hdrop_len]; omega)
            rw [htake_len] at ihL
            rw [hdrop_len] at ihR
            obtain ⟨hLh, hLl, hLc, hLm⟩ := ihL
            obtain ⟨hRh, hRl, hRc, hRm⟩ := ihR
            simp only [Nat.add_sub_cancel] at hLl
            set L := dpAux fuel (points.take (m + 1)) tol with hLdef
            set R := dpAux fuel (points.drop m) tol with hRdef
            have hLne : L ≠ [] := by intro h; rw [h] at hLh; simp at hLh
            have hRne : R ≠ [] := by intro h; rw [h] at hRh; simp at hRh
            have hLlen2 : 2 ≤ L.length :=
              length_ge_two_of_head_last hLh hLl (by omega)
            have hLd_ne : L.dropLast ≠ [] := by
              have hD := head?_dropLast hLlen2
              intro h
              rw [h, hLh] at hD
              simp at hD
            refine ⟨?_, ?_, ?_, ?_⟩
            · rw [List.head?_append_of_ne_nil _ hLd_ne, head?_dropLast hLlen2, hLh]
            · have hRmap_ne : R.map (fun i => i + m) ≠ [] := by
                simp [hRne]
              rw [List.getLast?_append_of_ne_nil _ hRmap_ne, List.getLast?_map, hRl]
              simp
              omega
            · rw [List.chain'_append]
              have hdecomp : L.dropLast ++ [L.getLast hLne] = L :=
                List.dropLast_append_getLast hLne
              have hlastval : L.getLast hLne = m := by
                have hg := List.getLast?_eq_getLast L hLne
                rw [hLl] at hg
                exact (Option.some.injEq _ _).mp hg.symm
              have hLc' := hLc
              rw [← hdecomp, List.chain'_append] at hLc'
              obtain ⟨hc1, _, hjunc⟩ := hLc'
              refine ⟨hc1, ?_, ?_⟩
              · rw [List.chain'_map]
                exact hRc.imp (fun a b hab => by omega)
              · intro x hx y hy
                have hy' : y = m := by
                  rw [List.head?_map, hRh] at hy
                  simp at hy
                  omega
                have hxm := hjunc x hx (L.getLast hLne) (by simp)
                rw [hlastval] at hxm
                omega
            · intro x hx
              rcases List.mem_append.mp hx with hx | hx
              · have hxL : x ∈ L := List.dropLast_subset _ hx
                have := hLm x hxL
                omega
              · obtain ⟨y, hy, rfl⟩ := List.mem_map.mp hx
                have := hRm y hy
                omega
          · rw [if_neg hgt]
            refine ⟨rfl, rfl, ?_, ?_⟩
            · simp [List.chain'_cons]
              omega
            · intro x hx
              simp at hx
              rcases hx with rfl | rfl <;> omega

theorem getD_take (l : List P2) (t x : ℕ) (d : P2) (hx : x < t) (hxl : x < l.length) :
    (l.take t).getD x d = l.getD x d := by
  rw [List.getD_eq_getElem _ _ (by rw [List.length_take]; omega),
      List.getD_eq_getElem _ _ hxl]
  exact List.getElem_take l

theorem getD_drop (l : List P2) (s x : ℕ) (d : P2) (h : s + x < l.length) :
    (l.drop s).getD x d = l.getD (s + x) d := by
  rw [List.getD_eq_getElem _ _ (by rw [List.length_drop]; omega),
      List.getD_eq_getElem _ _ h]
  exact List.getElem_drop l

theorem dpStart_eq_getD (points : List P2) (h : points ≠ []) :
    dpStart points = points.getD 0 (0, 0) := by
  cases points with
  | nil => exact absurd rfl h
  | cons q qs => rfl

theorem dpFinish_eq_getD (points : List P2) (h : points ≠ []) :
    dpFinish points = points.getD (points.length - 1) (0, 0) := by
  have hl : points.length - 1 < points.length := by
    cases points with
    | nil => exact absurd rfl h
    | cons q qs => simp
  rw [dpFinish_eq_getLast points h, List.getLast_eq_getElem,
      List.getD_eq_getElem _ _ hl]

theorem dpAux_zero_exact :
    ∀ (fuel : ℕ) (points : List P2),
      points.length ≤ fuel →
      (∀ i j : ℕ, i < j → j < points.length →
        1/1000000 ≤ dist2 (points.getD j (0, 0)) (points.getD i (0, 0))) →
      (∀ i j k : ℕ, i < j → j < k → k < points.length →
        cross2 (sub2 (points.getD j (0, 0)) (points.getD i (0, 0)))
          (sub2 (points.getD k (0, 0)) (points.getD i (0, 0))) ≠ 0) →
      dpAux fuel points 0 = List.range points.length := by
  intro fuel
  induction fuel with
  | zero =>
      intro points hf _ _
      have h0 : points.length = 0 := by omega
      rw [h0]
      rfl
  | succ fuel ih =>
      intro points hf hdist hcol
      simp only [dpAux]
      by_cases h3 : points.length < 3
      · rw [if_pos h3]
      · rw [if_neg h3]
        have hne : points ≠ [] := by
          intro h
          rw [h] at h3
          simp at h3
        have h6 : ¬ dpLineLen points < 1/1000000 := by
          have hchord : dpLineLen points
              = dist2 (points.getD (points.length - 1) (0, 0)) (points.getD 0 (0, 0)) := by
            rw [dpLineLen, dpStart_eq_getD points hne, dpFinish_eq_getD points hne]
            rfl
          rw [hchord]
          exact not_lt.mpr (hdist 0 (points.length - 1) (by omega) (by omega))
        rw [if_neg h6]
        have hL := dpLineLen_dot_pos points h6
        have hcross : cross2 (sub2 (dpFinish points) (dpStart points))
            (sub2 (points.getD 1 (0, 0)) (dpStart points)) ≠ 0 := by
          rw [dpStart_eq_getD points hne, dpFinish_eq_getD points hne]
          have hc := hcol 0 1 (points.length - 1) (by omega) (by omega) (by omega)
          intro hcontra
          apply hc
          have hswap : cross2 (sub2 (points.getD 1 (0, 0)) (points.getD 0 (0, 0)))
              (sub2 (points.getD (points.length - 1) (0, 0)) (points.getD 0 (0, 0)))
              = - cross2 (sub2 (points.getD (points.length - 1) (0, 0)) (points.getD 0 (0, 0)))
                  (sub2 (points.getD 1 (0, 0)) (points.getD 0 (0, 0))) := by
            rw [cross2, cross2]
            ring
          rw [hswap, hcontra]
          ring
        have hd1pos : 0 < distPtLine (dpStart points) (dpUnit points)
            (points.getD 1 (0, 0)) := by
          have hnz : distPtLine (dpStart points) (dpUnit points)
              (points.getD 1 (0, 0)) ≠ 0 := by
            rw [dpUnit, dpLineLen]
            intro h0
            exact hcross ((distPtLine_eq_zero_iff _ _ _ hL.ne').mp h0)
          exact lt_of_le_of_ne (distPtLine_nonneg _ _ _) (Ne.symm hnz)
        have hgt : dpMaxDist points > 0 := by
          have hmem1 : distPtLine (dpStart points) (dpUnit points) (points.getD 1 (0, 0))
              ∈ dpDistances points := by
            rw [dpDistances]
            refine List.mem_map.mpr ⟨points.getD 1 (0, 0), ?_, rfl⟩
            rw [List.getD_eq_getElem _ _ (by omega)]
            exact List.getElem_mem _
          exact lt_of_lt_of_le hd1pos (mem_le_foldl_max _ 0 _ hmem1)
        rw [if_pos hgt]
        obtain ⟨hge1, hlt⟩ := dp_maxIdx_bounds points 0 le_rfl h3 h6 hgt
        set m := dpMaxIdx points with hmdef
        have htake_len : (points.take (m + 1)).length = m + 1 := by
          rw [List.length_take]
          omega
        have hdrop_len : (points.drop m).length = points.length - m := by
          rw [List.length_drop]
        have ihL := ih (points.take (m + 1)) (by rw [htake_len]; omega)
          (fun i j hij hj => by
            rw [htake_len] at hj
            rw [getD_take points (m+1) j _ (by omega) (by omega),
                getD_take points (m+1) i _ (by omega) (by omega)]
            exact hdist i j hij (by omega))
          (fun i j k hij hjk hk => by
            rw [htake_len] at hk
            rw [getD_take points (m+1) i _ (by omega) (by omega),
                getD_take points (m+1) j _ (by omega) (by omega),
                getD_take points (m+1) k _ (by omega) (by omega)]
            exact hcol i j k hij hjk (by omega))
        have ihR := ih (points.drop m) (by rw [hdrop_len]; omega)
          (fun i j hij hj => by
            rw [hdrop_len] at hj
            rw [getD_drop points m j _ (by omega), getD_drop points m i _ (by omega)]
            exact hdist (m + i) (m + j) (by omega) (by omega))
          (fun i j k hij hjk hk => by
            rw [hdrop_len] at hk
            rw [getD_drop points m i _ (by omega), getD_drop points m j _ (by omega),
                getD_drop points m k _ (by omega)]
            exact hcol (m + i) (m + j) (m + k) (by omega) (by omega) (by omega))
        rw [ihL, ihR, htake_len, hdrop_len]
        have h1 : (List.range (m + 1)).dropLast = List.range m := by
          rw [List.range_succ]
          exact List.dropLast_concat
        have h2 : (List.range (points.length - m)).map (fun i => i + m)
            = List.range' m (points.length - m) := by
          rw [List.range'_eq_map_range]
          exact List.map_congr_left (fun x _ => Nat.add_comm x m)
        rw [h1, h2]
        have happ := List.range'_append 0 m (points.length - m) 1
        simp only [one_mul, Nat.zero_add] at happ
        rw [List.range_eq_range', happ, List.range_eq_range']
        congr 1
        omega

/-- Claim C3 (amended): Douglas-Peucker always retains the first and last
indices (for non-negative tolerance); with any tolerance at least the
maximum point-to-chord deviation (in particular infinite) and at least two
points it returns exactly the two endpoints; and with tolerance 0 it
reproduces the input exactly PROVIDED all points are pairwise at least
`1e-6` apart and no three points are collinear — collinear interior points
(or first/last points closer than the code's `1e-6` guard) are dropped even
at tolerance 0. -/
theorem douglasPeucker_spec (points : List P2) (tol : ℝ) (htol : 0 ≤ tol) :
    (1 ≤ points.length →
      0 ∈ douglasPeucker points tol
      ∧ (points.length - 1) ∈ douglasPeucker points tol)
    ∧ (2 ≤ points.length → dpMaxDist points ≤ tol →
        douglasPeucker points tol = [0, points.length - 1])
    ∧ (tol = 0 →
        (∀ i j : ℕ, i < j → j < points.length →
          1/1000000 ≤ dist2 (points.getD j (0, 0)) (points.getD i (0, 0))) →
        (∀ i j k : ℕ, i < j → j < k → k < points.length →
          cross2 (sub2 (points.getD j (0, 0)) (points.getD i (0, 0)))
            (sub2 (points.getD k (0, 0)) (points.getD i (0, 0))) ≠ 0) →
        douglasPeucker points tol = List.range points.length) := by
  refine ⟨?_, ?_, ?_⟩
  · intro h1
    obtain ⟨hh, hl, _, _⟩ := dpAux_shape points.length points tol le_rfl htol h1
    constructor
    · apply List.mem_of_mem_head?
      rw [douglasPeucker, hh]
      rfl
    · apply List.mem_of_mem_getLast?
      rw [douglasPeucker, hl]
      rfl
  · intro h2 hdev
    have hstep : douglasPeucker points tol = dpAux (points.length - 1 + 1) points tol := by
      rw [douglasPeucker]
      congr 1
      omega
    rw [hstep]
    simp only [dpAux]
    by_cases h3 : points.length < 3
    · rw [if_pos h3]
      have hlen2 : points.length = 2 := by omega
      rw [hlen2]
      rfl
    · rw [if_neg h3]
      by_cases h6 : dpLineLen points < 1/1000000
      · rw [if_pos h6]
      · rw [if_neg h6, if_neg (not_lt.mpr hdev)]
  · rintro rfl hdist hcol
    exact dpAux_zero_exact points.length points le_rfl hdist hcol

/-- Witness for C3 at a three-point non-collinear polyline with tolerance 0:
every point is kept, in order. -/
theorem douglasPeucker_spec_witness :
    douglasPeucker [((0:ℝ), (0:ℝ)), (1, 1), (2, 0)] 0 = [0, 1, 2]
    ∧ 0 ∈ douglasPeucker [((0:ℝ), (0:ℝ)), (1, 1), (2, 0)] 0 := by
  have key : ∀ t : ℝ, 1 ≤ t → 1/1000000 ≤ Real.sqrt t := by
    intro t ht
    refine le_trans (by norm_num : (1/1000000 : ℝ) ≤ 1) ?_
    rw [← Real.sqrt_one]
    exact Real.sqrt_le_sqrt ht
  have hdist : ∀ i j : ℕ, i < j → j < ([((0:ℝ), (0:ℝ)), (1, 1), (2, 0)] : List P2).length →
      1/1000000 ≤ dist2 (([((0:ℝ), (0:ℝ)), (1, 1), (2, 0)] : List P2).getD j (0, 0))
        (([((0:ℝ), (0:ℝ)), (1, 1), (2, 0)] : List P2).getD i (0, 0)) := by
    intro i j hij hj
    simp only [List.length_cons, List.length_nil] at hj
    interval_cases j <;> interval_cases i <;>
      simp only [List.getD_cons_zero, List.getD_cons_succ] <;>
      · rw [dist2, norm2]
        apply key
        rw [dot2, sub2]
        norm_num
  have hcol : ∀ i j k : ℕ, i < j → j < k →
      k < ([((0:ℝ), (0:ℝ)), (1, 1), (2, 0)] : List P2).length →
      cross2 (sub2 (([((0:ℝ), (0:ℝ)), (1, 1), (2, 0)] : List P2).getD j (0, 0))
          (([((0:ℝ), (0:ℝ)), (1, 1), (2, 0)] : List P2).getD i (0, 0)))
        (sub2 (([((0:ℝ), (0:ℝ)), (1, 1), (2, 0)] : List P2).getD k (0, 0))
          (([((0:ℝ), (0:ℝ)), (1, 1), (2, 0)] : List P2).getD i (0, 0))) ≠ 0 := by
    intro i j k hij hjk hk
    simp only [List.length_cons, List.length_nil] at hk
    obtain ⟨rfl, rfl, rfl⟩ : i = 0 ∧ j = 1 ∧ k = 2 := by omega
    simp only [List.getD_cons_zero, List.getD_cons_succ]
    rw [cross2, sub2, sub2]
    norm_num
  have h := douglasPeucker_spec [((0:ℝ), (0:ℝ)), (1, 1), (2, 0)] 0 le_rfl
  exact ⟨(h.2.2 rfl hdist hcol).trans rfl, (h.1 (by simp)).1⟩

/-- Counterexample to C3 as stated: at tolerance 0 the three collinear
points `(0,0), (1,0), (2,0)` do NOT reproduce the input — the interior
point is dropped and only the endpoints are returned. -/
theorem douglasPeucker_collinear_counterexample :
    douglasPeucker [((0:ℝ), (0:ℝ)), (1, 0), (2, 0)] 0 = [0, 2]
    ∧ ([0, 2] : List ℕ) ≠ [0, 1, 2] := by
  refine ⟨?_, by decide⟩
  have hdd : dot2 (sub2 (dpFinish [((0:ℝ), (0:ℝ)), (1, 0), (2, 0)])
      (dpStart [((0:ℝ), (0:ℝ)), (1, 0), (2, 0)]))
      (sub2 (dpFinish [((0:ℝ), (0:ℝ)), (1, 0), (2, 0)])
      (dpStart [((0:ℝ), (0:ℝ)), (1, 0), (2, 0)])) = 4 := by
    show dot2 (sub2 ((2:ℝ), (0:ℝ)) ((0:ℝ), (0:ℝ))) (sub2 ((2:ℝ), (0:ℝ)) ((0:ℝ), (0:ℝ))) = 4
    rw [dot2, sub2]
    norm_num
  have hdd0 : dot2 (sub2 (dpFinish [((0:ℝ), (0:ℝ)), (1, 0), (2, 0)])
      (dpStart [((0:ℝ), (0:ℝ)), (1, 0), (2, 0)]))
      (sub2 (dpFinish [((0:ℝ), (0:ℝ)), (1, 0), (2, 0)])
      (dpStart [((0:ℝ), (0:ℝ)), (1, 0), (2, 0)])) ≠ 0 := by
    rw [hdd]
    norm_num
  have hstep : douglasPeucker [((0:ℝ), (0:ℝ)), (1, 0), (2, 0)] 0
      = dpAux (2 + 1) [((0:ℝ), (0:ℝ)), (1, 0), (2, 0)] 0 := by
    rw [douglasPeucker]
    rfl
  rw [hstep]
  simp only [dpAux]
  rw [if_neg (by simp)]
  have hlen : dpLineLen [((0:ℝ), (0:ℝ)), (1, 0), (2, 0)] = 2 := by
    rw [dpLineLen, norm2, hdd]
    rw [show (4:ℝ) = 2^2 by norm_num]
    exact Real.sqrt_sq (by norm_num)
  rw [if_neg (by rw [hlen]; norm_num)]
  have hmax : dpMaxDist [((0:ℝ), (0:ℝ)), (1, 0), (2, 0)] = 0 := by
    have e0 : distPtLine (dpStart [((0:ℝ), (0:ℝ)), (1, 0), (2, 0)])
        (dpUnit [((0:ℝ), (0:ℝ)), (1, 0), (2, 0)]) ((0:ℝ), (0:ℝ)) = 0 :=
      distPtLine_self _ _
    have e1 : distPtLine (dpStart [((0:ℝ), (0:ℝ)), (1, 0), (2, 0)])
        (dpUnit [((0:ℝ), (0:ℝ)), (1, 0), (2, 0)]) ((1:ℝ), (0:ℝ)) = 0 := by
      rw [dpUnit, dpLineLen]
      refine (distPtLine_eq_zero_iff _ _ _ hdd0).mpr ?_
      show cross2 (sub2 ((2:ℝ), (0:ℝ)) ((0:ℝ), (0:ℝ))) (sub2 ((1:ℝ), (0:ℝ)) ((0:ℝ), (0:ℝ))) = 0
      rw [cross2, sub2, sub2]
      norm_num
    have e2 : distPtLine (dpStart [((0:ℝ), (0:ℝ)), (1, 0), (2, 0)])
        (dpUnit [((0:ℝ), (0:ℝ)), (1, 0), (2, 0)]) ((2:ℝ), (0:ℝ)) = 0 := by
      rw [dpUnit, dpLineLen]
      exact distPtLine_finish _ _ hdd0
    have hd : dpDistances [((0:ℝ), (0:ℝ)), (1, 0), (2, 0)] = [0, 0, 0] := by
      rw [dpDistances]
      simp only [List.map_cons, List.map_nil]
      rw [e0, e1, e2]
    rw [dpMaxDist, hd]
    simp
  rw [if_neg (by rw [hmax]; norm_num)]
  rfl

/-! ### Claim C4: the extract contract -/

theorem extract_cons (cfg : WaypointConfig) (hz : cfg.zThreshold = none) (T : SE3)
    (rest : List SE3) :
    extract cfg (T :: rest)
      = ((if cfg.simplify then
            simplifyTrajectory cfg.simplifyTolerance
              (filterByDistance cfg.minDistance ((T :: rest).map (fun q => q.t)))
          else filterByDistance cfg.minDistance ((T :: rest).map (fun q => q.t))).map proj2) := by
  show ((match cfg.zThreshold with
    | none => filterByDistance cfg.minDistance ((T :: rest).map (fun q => q.t))
    | some thr => filterByZ thr
        (filterByDistance cfg.minDistance ((T :: rest).map (fun q => q.t)))) |>
    (fun w2 => (if cfg.simplify then simplifyTrajectory cfg.simplifyTolerance w2
      else w2).map proj2)) = _
  rw [hz]

theorem simplifyTrajectory_ends (tol : ℝ) (htol : 0 ≤ tol) (w : List P3) (hne : w ≠ []) :
    (simplifyTrajectory tol w).head? = w.head?
    ∧ (simplifyTrajectory tol w).getLast? = w.getLast? := by
  rw [simplifyTrajectory]
  by_cases h3 : w.length < 3
  · rw [if_pos h3]
    exact ⟨rfl, rfl⟩
  · rw [if_neg h3]
    have hlen : (w.map proj2).length = w.length := List.length_map _ _
    have h1 : 1 ≤ (w.map proj2).length := by rw [hlen]; omega
    obtain ⟨hh, hl, _, _⟩ :=
      dpAux_shape (w.map proj2).length (w.map proj2) tol le_rfl htol h1
    have hdp : douglasPeucker (w.map proj2) tol
        = dpAux (w.map proj2).length (w.map proj2) tol := rfl
    constructor
    · rw [List.head?_map, hdp, hh]
      cases w with
      | nil => exact absurd rfl hne
      | cons q t => rfl
    · rw [List.getLast?_map, hdp, hl]
      simp only [Option.map_some', hlen]
      rw [List.getD_eq_getElem _ _ (by omega), List.getLast?_eq_getLast w hne,
        List.getLast_eq_getElem]

theorem simplifyTrajectory_ne (tol : ℝ) (htol : 0 ≤ tol) (w : List P3) (hne : w ≠ []) :
    simplifyTrajectory tol w ≠ [] := by
  intro h
  have hh := (simplifyTrajectory_ends tol htol w hne).1
  rw [h] at hh
  cases w with
  | nil => exact hne rfl
  | cons q t => simp at hh

theorem dist2_self (a : P2) : dist2 a a = 0 := by
  rw [dist2, norm2]
  rw [show dot2 (sub2 a a) (sub2 a a) = 0 by simp [dot2, sub2]]
  exact Real.sqrt_zero

/-- Claim C4 (amended): with the Z-band filter disabled and a non-negative
simplification tolerance, the output is non-empty iff the input is
non-empty; the first output waypoint is the 2D projection of the first
pose; with simplification off and positive `min_distance`, consecutive
outputs are distinct; and the last output waypoint is the 2D projection of
the last pose RETAINED by the minimum-spacing filter — which is the
trajectory's last pose only when that pose is kept by the filter. -/
theorem extract_contract (cfg : WaypointConfig) (poses : List SE3)
    (hz : cfg.zThreshold = none) (ht : 0 ≤ cfg.simplifyTolerance) :
    ((extract cfg poses = []) ↔ poses = [])
    ∧ (extract cfg poses).head? = (poses.map (fun T => proj2 T.t)).head?
    ∧ (cfg.simplify = false → 0 < cfg.minDistance →
        List.Chain' (· ≠ ·) (extract cfg poses))
    ∧ (extract cfg poses).getLast?
        = ((filterByDistance cfg.minDistance (poses.map (fun T => T.t))).map proj2).getLast? := by
  cases poses with
  | nil => exact ⟨by simp [extract], rfl, fun _ _ => List.chain'_nil, rfl⟩
  | cons T rest =>
      have hcons := extract_cons cfg hz T rest
      have hw1ne : filterByDistance cfg.minDistance ((T :: rest).map (fun q => q.t)) ≠ [] := by
        show T.t :: fbdAux cfg.minDistance T.t (rest.map (fun q => q.t)) ≠ []
        simp
      refine ⟨?_, ?_, ?_, ?_⟩
      · constructor
        · intro h
          exfalso
          rw [hcons] at h
          by_cases hs : cfg.simplify
          · rw [if_pos hs] at h
            exact simplifyTrajectory_ne cfg.simplifyTolerance ht _ hw1ne
              (List.map_eq_nil_iff.mp h)
          · rw [if_neg hs] at h
            exact hw1ne (List.map_eq_nil_iff.mp h)
        · intro h
          exact absurd h (List.cons_ne_nil T rest)
      · rw [hcons]
        by_cases hs : cfg.simplify
        · rw [if_pos hs, List.head?_map,
            (simplifyTrajectory_ends cfg.simplifyTolerance ht _ hw1ne).1]
          rfl
        · rw [if_neg hs, List.head?_map]
          rfl
      · intro hs hmin
        rw [hcons, if_neg (by rw [hs]; exact Bool.false_ne_true)]
        have hchain : List.Chain' (fun a b : P2 => cfg.minDistance ≤ dist2 b a)
            ((filterByDistance cfg.minDistance ((T :: rest).map (fun q => q.t))).map proj2) := by
          rw [List.chain'_map]
          exact filterByDistance_chain cfg.minDistance _
        refine hchain.imp ?_
        intro a b hab heq
        rw [heq, dist2_self] at hab
        exact absurd (lt_of_lt_of_le hmin hab) (lt_irrefl 0)
      · rw [hcons]
        by_cases hs : cfg.simplify
        · rw [if_pos hs, List.getLast?_map, List.getLast?_map,
            (simplifyTrajectory_ends cfg.simplifyTolerance ht _ hw1ne).2]
        · rw [if_neg hs]

/-- Counterexample to C4 as stated: with the default configuration, a
two-pose trajectory whose second pose is only 0.3 m away produces the single
waypoint `(0, 0)` — the last output does NOT equal the 2D projection
`(0.3, 0)` of the trajectory's last pose, which the spacing filter dropped. -/
theorem extract_last_counterexample :
    extract ⟨1/2, true, 1/10, none⟩ [⟨idM3, (0, 0, 0)⟩, ⟨idM3, (3/10, 0, 0)⟩]
      = [((0:ℝ), (0:ℝ))]
    ∧ proj2 (SE3.mk idM3 ((3/10:ℝ), 0, 0)).t = ((3/10:ℝ), (0:ℝ))
    ∧ (([((0:ℝ), (0:ℝ))] : List P2).getLast? ≠ some ((3/10:ℝ), (0:ℝ))) := by
  have hd : dist2 (proj2 ((3/10:ℝ), (0:ℝ), (0:ℝ))) (proj2 ((0:ℝ), (0:ℝ), (0:ℝ)))
      = 3/10 := by
    rw [dist2, proj2, proj2, norm2]
    rw [show dot2 (sub2 ((3/10:ℝ), (0:ℝ)) ((0:ℝ), (0:ℝ)))
        (sub2 ((3/10:ℝ), (0:ℝ)) ((0:ℝ), (0:ℝ))) = (3/10:ℝ)^2 by
      rw [dot2, sub2]; norm_num]
    exact Real.sqrt_sq (by norm_num)
  have hw1 : filterByDistance (1/2)
      [((0:ℝ), (0:ℝ), (0:ℝ)), ((3/10:ℝ), (0:ℝ), (0:ℝ))]
      = [((0:ℝ), (0:ℝ), (0:ℝ))] := by
    show ((0:ℝ), (0:ℝ), (0:ℝ))
      :: fbdAux (1/2) ((0:ℝ), (0:ℝ), (0:ℝ)) [((3/10:ℝ), (0:ℝ), (0:ℝ))] = _
    rw [fbdAux, if_neg (by rw [hd]; norm_num)]
    rfl
  refine ⟨?_, rfl, ?hlast⟩
  case hlast =>
    intro h
    have h0 : (([((0:ℝ), (0:ℝ))] : List P2).getLast?) = some ((0:ℝ), (0:ℝ)) := rfl
    rw [h0] at h
    have h2 := congrArg Prod.fst (Option.some_inj.mp h)
    norm_num at h2
  rw [extract_cons ⟨1/2, true, 1/10, none⟩ rfl _ _]
  rw [show ((⟨idM3, (0, 0, 0)⟩ : SE3) :: [⟨idM3, (3/10, 0, 0)⟩]).map (fun q => q.t)
      = [((0:ℝ), (0:ℝ), (0:ℝ)), ((3/10:ℝ), (0:ℝ), (0:ℝ))] from rfl]
  rw [if_pos rfl, hw1, simplifyTrajectory, if_pos (by simp)]
  rfl

/-- Witness for C4's amended theorem at a one-pose trajectory: the first
(and only) waypoint is the projection of the first pose. -/
theorem extract_contract_witness :
    (extract ⟨1/2, true, 1/10, none⟩ [idSE3]).head? = some ((0:ℝ), (0:ℝ)) :=
  ((extract_contract ⟨1/2, true, 1/10, none⟩ [idSE3] rfl (by norm_num)).2.1).trans rfl

end VehicleMapping
